import Mathlib

/-! # Morse converter (`pkg/morse`) and direction detector (`internal/service`)

A shallow embedding of `src/pkg/morse/morse.go` and of
`src/internal/service/service.go`.

Conventions of the embedding.

* A Go `string` holding valid UTF-8 is the list of its runes, `List Char`.
  `for _, ch := range text`, `[]rune(s)` and `string(out)` are then the
  identity, and `len(s)` (a number of BYTES) is `goLen s`, while `len` of a
  `[]rune` is `List.length`.
* A Go map is the list of its entries (keys distinct); looking a key up is
  `EncodingMap.get?`.  Go leaves the order in which `range` visits a map
  unspecified: `reverseEncodingMap` takes the sequence of entries the loop
  visits as its argument `visit`, a permutation of the entries.
* `unicode.ToUpper`, `strings.Split`, `strings.TrimSpace` and
  `strings.ContainsAny` are library code.  The case mapping is a parameter
  `upper` of the functions that use it; `unicodeToUpper` gives its values on
  ASCII and on the Cyrillic block for the literal examples.
-/

namespace Morse

/-! ## Library functions -/

/-- Number of bytes of the UTF-8 encoding of one rune. -/
def runeLen (ch : Char) : Nat :=
  if ch.toNat < 0x80 then 1
  else if ch.toNat < 0x800 then 2
  else if ch.toNat < 0x10000 then 3
  else 4

/-- Go `len(s)` for a string: its number of bytes. -/
def goLen (s : List Char) : Nat := (s.map runeLen).sum

/-- Go `unicode.ToUpper` on ASCII (the fast path of the library) and on the
Cyrillic letters U+0430..U+045F (the case ranges `0x0430-0x044F: -32` and
`0x0450-0x045F: -80`).  Other runes are returned unchanged here; every theorem
that quantifies over runes takes the case mapping as a parameter instead. -/
def unicodeToUpper (ch : Char) : Char :=
  let n := ch.toNat
  if 0x61 ≤ n ∧ n ≤ 0x7A then Char.ofNat (n - 32)
  else if 0x430 ≤ n ∧ n ≤ 0x44F then Char.ofNat (n - 32)
  else if 0x450 ≤ n ∧ n ≤ 0x45F then Char.ofNat (n - 80)
  else ch

/-- Go `unicode.IsSpace`: the runes with the Unicode White_Space property. -/
def isSpace (ch : Char) : Bool :=
  let n := ch.toNat
  (0x09 ≤ n && n ≤ 0x0D) || n == 0x20 || n == 0x85 || n == 0xA0 || n == 0x1680 ||
  (0x2000 ≤ n && n ≤ 0x200A) || n == 0x2028 || n == 0x2029 || n == 0x202F ||
  n == 0x205F || n == 0x3000

/-- Go `strings.TrimSpace`: leading and trailing white space removed. -/
def TrimSpace (s : List Char) : List Char :=
  ((s.dropWhile isSpace).reverse.dropWhile isSpace).reverse

/-- Go `strings.ContainsAny`: some rune of `chars` occurs in `s`. -/
def ContainsAny (s chars : List Char) : Bool :=
  s.any (fun ch => chars.contains ch)

/-- Prepends a rune to the first piece of a split. -/
def consHead (ch : Char) : List (List Char) → List (List Char)
  | [] => [[ch]]
  | w :: ws => (ch :: w) :: ws

/-- Scan of `strings.Split` for a non-empty separator: `skip` runes of a
separator just matched are still to be passed over. -/
def splitScan (sep : List Char) : List Char → Nat → List (List Char)
  | [], _ => [[]]
  | _ :: rest, skip + 1 => splitScan sep rest skip
  | ch :: rest, 0 =>
    if sep.isPrefixOf (ch :: rest) then [] :: splitScan sep rest (sep.length - 1)
    else consHead ch (splitScan sep rest 0)

/-- Go `strings.Split(s, sep)`: `s` cut at each leftmost, non-overlapping
occurrence of `sep`; with an empty `sep`, one string per rune. -/
def Split (s sep : List Char) : List (List Char) :=
  if sep = [] then s.map (fun ch => [ch]) else splitScan sep s 0

/-! ## `pkg/morse` -/

/-- Go `type EncodingMap map[rune]string`: `none` is the nil map, `some l` the
map with the entries `l`. -/
abbrev EncodingMap := Option (List (Char × List Char))

/-- Go `v, ok := m[k]`. -/
def EncodingMap.get? (m : EncodingMap) (k : Char) : Option (List Char) :=
  match m with
  | none => none
  | some l => l.lookup k

/-- Go `const Space`. -/
def Space : List Char := " ".toList

/-- Entries of `DefaultMorse`, in the order of the source. -/
def DefaultMorseEntries : List (Char × List Char) :=
  [ ('А', ".-".toList), ('Б', "-...".toList), ('В', ".--".toList), ('Г', "--.".toList),
    ('Д', "-..".toList), ('Е', ".".toList), ('Ж', "...-".toList), ('З', "--..".toList),
    ('И', "..".toList), ('Й', ".---".toList), ('К', "-.-".toList), ('Л', ".-..".toList),
    ('М', "--".toList), ('Н', "-.".toList), ('О', "---".toList), ('П', ".--.".toList),
    ('Р', ".-.".toList), ('С', "...".toList), ('Т', "-".toList), ('У', "..-".toList),
    ('Ф', "..-.".toList), ('Х', "....".toList), ('Ц', "-.-.".toList), ('Ч', "---.".toList),
    ('Ш', "----".toList), ('Щ', "--.-".toList), ('Ь', "-..-".toList), ('Ы', "-.--".toList),
    ('Ъ', "-..-".toList), ('Э', "..-..".toList), ('Ю', "..--".toList), ('Я', ".-.-".toList),
    ('1', ".----".toList), ('2', "..---".toList), ('3', "...--".toList), ('4', "....-".toList),
    ('5', ".....".toList), ('6', "-....".toList), ('7', "--...".toList), ('8', "---..".toList),
    ('9', "----.".toList), ('0', "-----".toList),
    ('.', "......".toList), (',', ".-.-.-".toList), (':', "---...".toList),
    ('?', "..--..".toList), ('\'', ".----.".toList), ('-', "-....-".toList),
    ('/', "-..-.".toList), ('(', "-.--.".toList), (')', "-.--.-".toList),
    ('"', ".-..-.".toList) ]

/-- Go `var DefaultMorse`. -/
def DefaultMorse : EncodingMap := some DefaultMorseEntries

/-- The keys of `DefaultMorse`. -/
def DefaultMorseKeys : List Char := DefaultMorseEntries.map Prod.fst

/-- Go `type ErrNoEncoding struct{ Text string }`. -/
structure ErrNoEncoding where
  Text : List Char
deriving DecidableEq, Repr

/-- Go `type ErrorHandler func(error) string`; the converter only ever passes
an `ErrNoEncoding`. -/
abbrev ErrorHandler := ErrNoEncoding → List Char

/-- Go `map[string]rune`. -/
abbrev ReverseMap := List Char → Option Char

/-- Go `ret[v] = k`. -/
def ReverseMap.set (ret : ReverseMap) (v : List Char) (k : Char) : ReverseMap :=
  fun c => if c = v then some k else ret c

/-- Go `reverseEncodingMap`; `visit` is the sequence of entries that
`for k, v := range encoding` yields. -/
def reverseEncodingMap (visit : List (Char × List Char)) : ReverseMap :=
  visit.foldl (fun ret kv => ret.set kv.2 kv.1) (fun _ => none)

/-- Go `type Converter struct`. -/
structure Converter where
  runeToMorse : EncodingMap
  morseToRune : ReverseMap
  charSeparator : List Char
  wordSeparator : List Char
  convertToUpper : Bool
  trailingSeparator : Bool
  Handling : ErrorHandler

/-- Go `type ConverterOption func(Converter) Converter`. -/
abbrev ConverterOption := Converter → Converter

/-- Go `IgnoreHandler`. -/
def IgnoreHandler : ErrorHandler := fun _ => []

/-- Go `WithHandler`. -/
def WithHandler (handler : ErrorHandler) : ConverterOption :=
  fun c => { c with Handling := handler }

/-- Go `WithLowercaseHandling`. -/
def WithLowercaseHandling (lowercaseHandling : Bool) : ConverterOption :=
  fun c => { c with convertToUpper := lowercaseHandling }

/-- Go `WithTrailingSeparator`. -/
def WithTrailingSeparator (trailingSpace : Bool) : ConverterOption :=
  fun c => { c with trailingSeparator := trailingSpace }

/-- Go `WithCharSeparator`. -/
def WithCharSeparator (charSeparator : List Char) : ConverterOption :=
  fun c => { c with charSeparator := charSeparator }

/-- Go `WithWordSeparator`. -/
def WithWordSeparator (wordSeparator : List Char) : ConverterOption :=
  fun c => { c with wordSeparator := wordSeparator }

/-- The part of Go `NewConverter` after the nil check.  `visit` is the order in
which `reverseEncodingMap` ranges over `convertingMap`. -/
def newConverter (convertingMap : EncodingMap) (visit : List (Char × List Char))
    (options : List ConverterOption) : Converter :=
  let morseToRune := reverseEncodingMap visit
  let c : Converter :=
    { runeToMorse := convertingMap
      morseToRune := morseToRune
      charSeparator := " ".toList
      wordSeparator := []
      convertToUpper := false
      trailingSeparator := false
      Handling := IgnoreHandler }
  let c := options.foldl (fun c opt => opt c) c
  if c.wordSeparator = [] then
    let sp := match c.runeToMorse.get? ' ' with
      | some sp => sp
      | none => Space
    { c with wordSeparator := c.charSeparator ++ sp ++ c.charSeparator }
  else c

/-- Go `NewConverter`; `none` is the panic on a nil map. -/
def NewConverter (convertingMap : EncodingMap) (visit : List (Char × List Char))
    (options : List ConverterOption) : Option Converter :=
  match convertingMap with
  | none => none
  | some _ => some (newConverter convertingMap visit options)

/-- The statement under `// Remove last charSeparator`, shared by `ToMorse` and
`ToText`: `len(c.charSeparator)` counts bytes, `len(out)` counts runes. -/
def Converter.removeLast (c : Converter) (out : List Char) : List Char :=
  if !c.trailingSeparator && decide (goLen c.charSeparator ≤ out.length) then
    out.take (out.length - goLen c.charSeparator)
  else out

/-- Body of the loop of `ToMorse` for one rune `ch` of the text. -/
def Converter.morseStep (upper : Char → Char) (c : Converter) (out : List Char)
    (ch : Char) : List Char :=
  let ch := if c.convertToUpper then upper ch else ch
  match c.runeToMorse.get? ch with
  | none =>
    let hand := c.Handling ⟨[ch]⟩
    let out := out ++ hand
    if hand.length ≠ 0 then out ++ c.charSeparator else out
  | some code => (out ++ code) ++ c.charSeparator

/-- Go `Converter.ToMorse`. -/
def Converter.ToMorse (upper : Char → Char) (c : Converter) (text : List Char) :
    List Char :=
  c.removeLast (text.foldl (c.morseStep upper) [])

/-- Body of the inner loop of `ToText` for one code `ch` of a word. -/
def Converter.textStep (c : Converter) (out : List Char) (ch : List Char) :
    List Char :=
  match c.morseToRune ch with
  | none =>
    let hand := c.Handling ⟨ch⟩
    let out := out ++ hand
    if hand.length ≠ 0 then out ++ c.charSeparator else out
  | some text => out ++ [text]

/-- Body of the outer loop of `ToText` for one word. -/
def Converter.wordStep (c : Converter) (out : List Char) (word : List Char) :
    List Char :=
  let chars := Split word c.charSeparator
  (chars.foldl c.textStep out) ++ [' ']

/-- Go `Converter.ToText`. -/
def Converter.ToText (c : Converter) (morse : List Char) : List Char :=
  let words := Split morse (c.charSeparator ++ Space ++ c.charSeparator)
  c.removeLast (words.foldl c.wordStep [])

/-- The options of `var DefaultConverter`. -/
def defaultOptions : List ConverterOption :=
  [ WithCharSeparator " ".toList, WithWordSeparator "   ".toList,
    WithLowercaseHandling true, WithHandler IgnoreHandler,
    WithTrailingSeparator false ]

/-- Go `var DefaultConverter`, for the order `visit` in which the entries of
`DefaultMorse` were ranged over when the inverse table was built. -/
def DefaultConverter (visit : List (Char × List Char)) : Converter :=
  newConverter DefaultMorse visit defaultOptions

/-- Go package-level `ToText`. -/
def ToText (visit : List (Char × List Char)) (morse : List Char) : List Char :=
  (DefaultConverter visit).ToText morse

/-- Go package-level `ToMorse`. -/
def ToMorse (upper : Char → Char) (visit : List (Char × List Char))
    (text : List Char) : List Char :=
  (DefaultConverter visit).ToMorse upper text

end Morse

/-! ## `internal/service` -/

namespace Service

/-- Go `AutoConvert`: the pair of the returned string and the returned error
(`none` is `nil`). -/
def AutoConvert (upper : Char → Char) (visit : List (Char × List Char))
    (input : List Char) : List Char × Option (List Char) :=
  let input := Morse.TrimSpace input
  if input = [] then
    ([], some "пустой ввод".toList)
  else if Morse.ContainsAny input ".-/".toList then
    (Morse.ToText visit input, none)
  else
    (Morse.ToMorse upper visit input, none)

end Service

namespace Morse

/-! ## Reference definitions, after the words of the specification -/

/-- Encoding as the specification words it: the codes of the runes whose
upper case is a key of the table, in order, joined by single spaces. -/
def encodeSpec (upper : Char → Char) (text : List Char) : List Char :=
  " ".toList.intercalate (text.filterMap (fun r => DefaultMorse.get? (upper r)))

/-- Decoding as the specification words it: the input is split on three
spaces into words, each word on one space into codes; the codes found in the
inverse table are replaced by their symbols, the others dropped; the words are
joined by single spaces. -/
def decodeSpec (inverse : ReverseMap) (morse : List Char) : List Char :=
  " ".toList.intercalate
    ((Split morse "   ".toList).map (fun word => (Split word " ".toList).filterMap inverse))

/-- What one rune of the text adds to the output of `ToMorse`, as the
specification words it: its code and a character separator when it (case
folded if configured) has a code; otherwise what the handler returns for the
error carrying the symbol, and a character separator if and only if that is
not empty. -/
def spliceSpec (upper : Char → Char) (c : Converter) (ch : Char) : List Char :=
  let sym := if c.convertToUpper then upper ch else ch
  match c.runeToMorse.get? sym with
  | some code => code ++ c.charSeparator
  | none =>
    if c.Handling ⟨[sym]⟩ = [] then [] else c.Handling ⟨[sym]⟩ ++ c.charSeparator

/-- A call of one of the five option constructors of the package, with its
argument. -/
inductive OptionCall where
  | handler (h : ErrorHandler)
  | lowercaseHandling (b : Bool)
  | trailingSeparator (b : Bool)
  | charSeparator (sep : List Char)
  | wordSeparator (sep : List Char)

/-- The `ConverterOption` that the call gives. -/
def OptionCall.toOption : OptionCall → ConverterOption
  | .handler h => WithHandler h
  | .lowercaseHandling b => WithLowercaseHandling b
  | .trailingSeparator b => WithTrailingSeparator b
  | .charSeparator sep => WithCharSeparator sep
  | .wordSeparator sep => WithWordSeparator sep

/-- Whether the call is one of `WithWordSeparator`. -/
def OptionCall.isWordSeparator : OptionCall → Bool
  | .wordSeparator _ => true
  | _ => false

/-- Two converters that differ at most in their word separator. -/
def Converter.sameButWordSeparator (c1 c2 : Converter) : Prop :=
  c1.runeToMorse = c2.runeToMorse ∧ c1.morseToRune = c2.morseToRune ∧
  c1.charSeparator = c2.charSeparator ∧ c1.convertToUpper = c2.convertToUpper ∧
  c1.trailingSeparator = c2.trailingSeparator ∧ c1.Handling = c2.Handling

/-- Two converters that differ at most in their inverse table. -/
def Converter.sameButInverse (c1 c2 : Converter) : Prop :=
  c1.runeToMorse = c2.runeToMorse ∧ c1.charSeparator = c2.charSeparator ∧
  c1.wordSeparator = c2.wordSeparator ∧ c1.convertToUpper = c2.convertToUpper ∧
  c1.trailingSeparator = c2.trailingSeparator ∧ c1.Handling = c2.Handling

/-! ## Basic facts -/

theorem NewConverter_default (visit : List (Char × List Char)) :
    NewConverter DefaultMorse visit defaultOptions = some (DefaultConverter visit) := rfl

theorem DefaultConverter_eq (visit : List (Char × List Char)) :
    DefaultConverter visit =
      { runeToMorse := DefaultMorse
        morseToRune := reverseEncodingMap visit
        charSeparator := " ".toList
        wordSeparator := "   ".toList
        convertToUpper := true
        trailingSeparator := false
        Handling := IgnoreHandler } := rfl

theorem morseStep_append (upper : Char → Char) (c : Converter) (out : List Char)
    (ch : Char) : c.morseStep upper out ch = out ++ c.morseStep upper [] ch := by
  unfold Converter.morseStep
  dsimp only
  split
  · split_ifs <;> simp
  · simp

theorem foldl_morseStep (upper : Char → Char) (c : Converter) (text out : List Char) :
    text.foldl (c.morseStep upper) out
      = out ++ text.flatMap (fun ch => c.morseStep upper [] ch) := by
  induction text generalizing out with
  | nil => simp
  | cons ch rest ih =>
    rw [List.foldl_cons, ih, morseStep_append]
    simp [List.append_assoc]

theorem textStep_append (c : Converter) (out ch : List Char) :
    c.textStep out ch = out ++ c.textStep [] ch := by
  unfold Converter.textStep
  dsimp only
  split
  · split_ifs <;> simp
  · simp

theorem foldl_textStep (c : Converter) (chars : List (List Char)) (out : List Char) :
    chars.foldl c.textStep out = out ++ chars.flatMap (fun ch => c.textStep [] ch) := by
  induction chars generalizing out with
  | nil => simp
  | cons ch rest ih =>
    rw [List.foldl_cons, ih, textStep_append]
    simp [List.append_assoc]

theorem wordStep_append (c : Converter) (out word : List Char) :
    c.wordStep out word = out ++ c.wordStep [] word := by
  unfold Converter.wordStep
  dsimp only
  rw [foldl_textStep, foldl_textStep c _ []]
  simp [List.append_assoc]

theorem foldl_wordStep (c : Converter) (words : List (List Char)) (out : List Char) :
    words.foldl c.wordStep out = out ++ words.flatMap (fun w => c.wordStep [] w) := by
  induction words generalizing out with
  | nil => simp
  | cons w rest ih =>
    rw [List.foldl_cons, ih, wordStep_append]
    simp [List.append_assoc]

/-! ### Joining with a separator -/

theorem flatMap_append_sep (sep : List Char) (l : List (List Char)) (h : l ≠ []) :
    l.flatMap (fun w => w ++ sep) = sep.intercalate l ++ sep := by
  induction l with
  | nil => exact absurd rfl h
  | cons w rest ih =>
    cases rest with
    | nil => simp [List.intercalate, List.intersperse]
    | cons w2 rest2 =>
      have ih2 := ih (by simp)
      rw [List.flatMap_cons, ih2]
      simp [List.intercalate, List.intersperse, List.append_assoc]

theorem dropLast_flatMap_space (l : List (List Char)) :
    (l.flatMap (fun w => w ++ " ".toList)).dropLast = " ".toList.intercalate l := by
  cases l with
  | nil => simp [List.intercalate, List.intersperse]
  | cons w rest =>
    rw [flatMap_append_sep _ _ (by simp)]
    exact List.dropLast_concat

theorem flatMap_filterMap_sep {α : Type} (f : α → Option (List Char)) (sep : List Char)
    (l : List α) :
    l.flatMap (fun a => match f a with
        | none => []
        | some code => (([] : List Char) ++ code) ++ sep)
      = (l.filterMap f).flatMap (fun w => w ++ sep) := by
  induction l with
  | nil => simp
  | cons a rest ih =>
    rw [List.flatMap_cons, ih, List.filterMap_cons]
    cases f a <;> simp

/-! ### The final trimming -/

theorem removeLast_of_trailing (c : Converter) (out : List Char)
    (h : c.trailingSeparator = true) : c.removeLast out = out := by
  simp [Converter.removeLast, h]

theorem removeLast_goLen_one (c : Converter) (out : List Char)
    (ht : c.trailingSeparator = false) (hl : goLen c.charSeparator = 1) :
    c.removeLast out = out.dropLast := by
  unfold Converter.removeLast
  rw [ht, hl, List.dropLast_eq_take]
  by_cases h : 1 ≤ out.length
  · simp [h]
  · have h0 : out = [] := by
      cases out with
      | nil => rfl
      | cons a l => simp at h
    simp [h0]

/-! ### The inverse table -/

theorem foldl_set_some (visit : List (Char × List Char)) (ret : ReverseMap)
    (c : List Char) (k : Char)
    (h : visit.foldl (fun ret kv => ReverseMap.set ret kv.2 kv.1) ret c = some k) :
    (k, c) ∈ visit ∨ ret c = some k := by
  induction visit generalizing ret with
  | nil => exact Or.inr h
  | cons kv rest ih =>
    rw [List.foldl_cons] at h
    rcases ih _ h with h1 | h1
    · exact Or.inl (List.mem_cons_of_mem _ h1)
    · unfold ReverseMap.set at h1
      split_ifs at h1 with hc
      · left
        have hk : kv.1 = k := Option.some.inj h1
        have : kv = (k, c) := by
          rw [← hk, hc]
        rw [this]
        exact List.mem_cons_self _ _
      · exact Or.inr h1

theorem foldl_set_isSome (visit : List (Char × List Char)) (ret : ReverseMap)
    (c : List Char) (h : (∃ k, (k, c) ∈ visit) ∨ (ret c).isSome = true) :
    (visit.foldl (fun ret kv => ReverseMap.set ret kv.2 kv.1) ret c).isSome = true := by
  induction visit generalizing ret with
  | nil =>
    rcases h with ⟨k, hk⟩ | h
    · simp at hk
    · exact h
  | cons kv rest ih =>
    rw [List.foldl_cons]
    apply ih
    by_cases hc : c = kv.2
    · right
      simp [ReverseMap.set, hc]
    · rcases h with ⟨k, hk⟩ | h
      · rcases List.mem_cons.1 hk with h1 | h1
        · exact absurd (by rw [← h1]) hc
        · exact Or.inl ⟨k, h1⟩
      · right
        simpa [ReverseMap.set, hc] using h

theorem reverseEncodingMap_some (visit : List (Char × List Char)) (c : List Char)
    (k : Char) (h : reverseEncodingMap visit c = some k) : (k, c) ∈ visit := by
  rcases foldl_set_some visit _ c k h with h1 | h1
  · exact h1
  · simp at h1

theorem reverseEncodingMap_none (visit : List (Char × List Char)) (c : List Char)
    (h : ∀ k, (k, c) ∉ visit) : reverseEncodingMap visit c = none := by
  cases hr : reverseEncodingMap visit c with
  | none => rfl
  | some k => exact absurd (reverseEncodingMap_some visit c k hr) (h k)

theorem reverseEncodingMap_unique (visit entries : List (Char × List Char))
    (hperm : visit.Perm entries) (c : List Char) (k : Char) (hmem : (k, c) ∈ entries)
    (huniq : ∀ p ∈ entries, p.2 = c → p.1 = k) : reverseEncodingMap visit c = some k := by
  have hs := foldl_set_isSome visit (fun _ => none) c (Or.inl ⟨k, hperm.mem_iff.2 hmem⟩)
  cases hr : reverseEncodingMap visit c with
  | none =>
    unfold reverseEncodingMap at hr
    rw [hr] at hs
    simp at hs
  | some k2 =>
    have h2 := hperm.mem_iff.1 (reverseEncodingMap_some visit c k2 hr)
    have := huniq _ h2 rfl
    simp at this
    rw [this]

/-! ### `strings.Split` -/

theorem consHead_ne_nil (ch : Char) (l : List (List Char)) : consHead ch l ≠ [] := by
  cases l <;> simp [consHead]

theorem splitScan_ne_nil (sep s : List Char) (skip : Nat) : splitScan sep s skip ≠ [] := by
  induction s generalizing skip with
  | nil => simp [splitScan]
  | cons ch rest ih =>
    cases skip with
    | zero =>
      unfold splitScan
      split_ifs
      · simp
      · exact consHead_ne_nil _ _
    | succ n =>
      unfold splitScan
      exact ih n

theorem Split_ne_nil (s sep : List Char) (h : sep ≠ []) : Split s sep ≠ [] := by
  simp [Split, h, splitScan_ne_nil]

/-! ### Encoding and decoding with the default converter -/

theorem flatMap_textStep_ignore (c : Converter) (h : c.Handling = IgnoreHandler)
    (chars : List (List Char)) :
    chars.flatMap (fun ch => c.textStep [] ch) = chars.filterMap c.morseToRune := by
  induction chars with
  | nil => simp
  | cons ch rest ih =>
    rw [List.flatMap_cons, ih, List.filterMap_cons]
    unfold Converter.textStep
    cases hm : c.morseToRune ch <;> simp [h, IgnoreHandler]

theorem wordStep_default (visit : List (Char × List Char)) (word : List Char) :
    (DefaultConverter visit).wordStep [] word
      = (Split word " ".toList).filterMap (reverseEncodingMap visit) ++ " ".toList := by
  unfold Converter.wordStep
  dsimp only
  rw [foldl_textStep, flatMap_textStep_ignore _ rfl]
  rfl

theorem ToMorse_eq_encodeSpec (upper : Char → Char) (visit : List (Char × List Char))
    (text : List Char) : ToMorse upper visit text = encodeSpec upper text := by
  unfold ToMorse Converter.ToMorse encodeSpec
  rw [foldl_morseStep, removeLast_goLen_one (DefaultConverter visit) _ rfl rfl, List.nil_append,
    ← dropLast_flatMap_space, ← flatMap_filterMap_sep]
  congr 1

theorem ToText_eq_decodeSpec (visit : List (Char × List Char)) (morse : List Char) :
    ToText visit morse = decodeSpec (reverseEncodingMap visit) morse := by
  unfold ToText Converter.ToText decodeSpec
  dsimp only
  rw [foldl_wordStep, removeLast_goLen_one (DefaultConverter visit) _ rfl rfl, List.nil_append,
    ← dropLast_flatMap_space, List.flatMap_map]
  congr 1
  simp only [wordStep_default]
  rfl

/-! ### The default table -/

theorem DefaultMorse_code_unique :
    ∀ p ∈ DefaultMorseEntries, ∀ q ∈ DefaultMorseEntries,
      q.2 = p.2 → p.2 ≠ "-..-".toList → q.1 = p.1 := by
  decide

theorem reverse_default (visit : List (Char × List Char))
    (hperm : visit.Perm DefaultMorseEntries) (k : Char) (c : List Char)
    (hmem : (k, c) ∈ DefaultMorseEntries) (hne : c ≠ "-..-".toList) :
    reverseEncodingMap visit c = some k :=
  reverseEncodingMap_unique visit DefaultMorseEntries hperm c k hmem
    (fun q hq hc => DefaultMorse_code_unique (k, c) hmem q hq hc hne)

theorem DefaultMorse_lookup :
    ∀ p ∈ DefaultMorseEntries, DefaultMorseEntries.lookup p.1 = some p.2 := by
  decide

theorem DefaultMorse_code_no_space :
    ∀ p ∈ DefaultMorseEntries,
      Split p.2 "   ".toList = [p.2] ∧ Split p.2 " ".toList = [p.2] := by
  decide

theorem DefaultMorse_shared_code :
    ∀ p ∈ DefaultMorseEntries,
      (p.1 ≠ 'Ь' → p.1 ≠ 'Ъ' → p.2 ≠ "-..-".toList) ∧
      (p.2 = "-..-".toList → p.1 = 'Ь' ∨ p.1 = 'Ъ') ∧
      (p.1 = 'Ь' ∨ p.1 = 'Ъ' → p.2 = "-..-".toList) := by
  decide

theorem DefaultMorse_get?_none (r : Char) (h : r ∉ DefaultMorseKeys) :
    DefaultMorse.get? r = none := by
  unfold DefaultMorse EncodingMap.get?
  dsimp only
  rw [List.lookup_eq_none_iff]
  intro p hp
  simp only [bne_iff_ne, ne_eq]
  intro hr
  exact h (by rw [hr]; exact List.mem_map_of_mem _ hp)

theorem ToMorse_single (upper : Char → Char) (visit : List (Char × List Char))
    (k : Char) (code : List Char) (hk : upper k = k) (hmem : (k, code) ∈ DefaultMorseEntries) :
    ToMorse upper visit [k] = code := by
  rw [ToMorse_eq_encodeSpec]
  have hl : DefaultMorse.get? k = some code := DefaultMorse_lookup (k, code) hmem
  simp [encodeSpec, hk, hl, List.intercalate, List.intersperse]

theorem ToText_code (visit : List (Char × List Char)) (k k2 : Char) (code : List Char)
    (hmem : (k, code) ∈ DefaultMorseEntries) (hr : reverseEncodingMap visit code = some k2) :
    ToText visit code = [k2] := by
  rw [ToText_eq_decodeSpec]
  have hs := DefaultMorse_code_no_space (k, code) hmem
  simp only at hs
  unfold decodeSpec
  rw [hs.1, List.map_singleton, hs.2]
  simp [hr, List.intercalate, List.intersperse]

/-! ### `strings.TrimSpace` and `strings.ContainsAny` -/

theorem TrimSpace_eq_nil_iff (s : List Char) :
    TrimSpace s = [] ↔ ∀ ch ∈ s, isSpace ch = true := by
  unfold TrimSpace
  rw [List.reverse_eq_nil_iff, List.dropWhile_eq_nil_iff]
  simp only [List.mem_reverse]
  constructor
  · intro h
    cases hd : List.dropWhile isSpace s with
    | nil => exact List.dropWhile_eq_nil_iff.1 hd
    | cons x r =>
      have hne : List.dropWhile isSpace s ≠ [] := by simp [hd]
      have h1 := List.head_dropWhile_not isSpace s hne
      have h2 := h _ (List.head_mem hne)
      rw [h1] at h2
      exact absurd h2 (by decide)
  · intro h x hx
    exact h x ((List.dropWhile_sublist isSpace).subset hx)

theorem ContainsAny_morse (t : List Char) :
    ContainsAny t ".-/".toList = true ↔ ∃ ch ∈ t, ch = '.' ∨ ch = '-' ∨ ch = '/' := by
  unfold ContainsAny
  rw [List.any_eq_true]
  constructor
  · rintro ⟨x, hx, h⟩
    refine ⟨x, hx, ?_⟩
    simpa using h
  · rintro ⟨x, hx, h⟩
    refine ⟨x, hx, ?_⟩
    simpa using h

/-! ### The output buffer of `ToMorse` -/

theorem morseStep_eq_spliceSpec (upper : Char → Char) (c : Converter) (ch : Char) :
    c.morseStep upper [] ch = spliceSpec upper c ch := by
  unfold Converter.morseStep spliceSpec
  dsimp only
  generalize (if c.convertToUpper = true then upper ch else ch) = sym
  cases hg : c.runeToMorse.get? sym with
  | some code => simp
  | none =>
    by_cases hh : c.Handling ⟨[sym]⟩ = []
    · simp [hh]
    · simp [hh]

theorem ToMorse_eq_removeLast (upper : Char → Char) (c : Converter) (text : List Char) :
    c.ToMorse upper text = c.removeLast (text.flatMap (spliceSpec upper c)) := by
  unfold Converter.ToMorse
  rw [foldl_morseStep, List.nil_append]
  congr 2
  funext ch
  exact morseStep_eq_spliceSpec upper c ch

theorem spliceSpec_ends (upper : Char → Char) (c : Converter) (ch : Char) :
    spliceSpec upper c ch = [] ∨ ∃ pre, spliceSpec upper c ch = pre ++ c.charSeparator := by
  unfold spliceSpec
  dsimp only
  generalize (if c.convertToUpper = true then upper ch else ch) = sym
  cases hg : c.runeToMorse.get? sym with
  | some code => exact Or.inr ⟨code, rfl⟩
  | none =>
    by_cases hh : c.Handling ⟨[sym]⟩ = []
    · left
      simp [hh]
    · right
      exact ⟨c.Handling ⟨[sym]⟩, by simp [hh]⟩

theorem buffer_ends (upper : Char → Char) (c : Converter) (text : List Char) :
    text.flatMap (spliceSpec upper c) = [] ∨
      ∃ pre, text.flatMap (spliceSpec upper c) = pre ++ c.charSeparator := by
  induction text with
  | nil => exact Or.inl rfl
  | cons ch rest ih =>
    rw [List.flatMap_cons]
    rcases ih with h0 | ⟨pre, hpre⟩
    · rw [h0, List.append_nil]
      exact spliceSpec_ends upper c ch
    · right
      exact ⟨spliceSpec upper c ch ++ pre, by rw [hpre, List.append_assoc]⟩

/-- When the byte length of the character separator equals its number of
runes (an ASCII separator), the final trimming of `ToMorse` removes exactly
the separator that ends a non-empty buffer. -/
theorem ToMorse_trim_of_goLen_eq_length (upper : Char → Char) (c : Converter)
    (text : List Char) (ht : c.trailingSeparator = false)
    (hlen : goLen c.charSeparator = c.charSeparator.length)
    (hne : text.flatMap (spliceSpec upper c) ≠ []) :
    c.ToMorse upper text ++ c.charSeparator = text.flatMap (spliceSpec upper c) := by
  rw [ToMorse_eq_removeLast]
  rcases buffer_ends upper c text with h0 | ⟨pre, hpre⟩
  · exact absurd h0 hne
  · rw [hpre]
    unfold Converter.removeLast
    rw [ht, hlen]
    simp

/-! ### The output buffer of `ToText` -/

/-- When the character separator is one byte long, the final trimming of
`ToText` removes exactly the space appended after the last word. -/
theorem ToText_trim_of_goLen_one (c : Converter) (morse : List Char)
    (ht : c.trailingSeparator = false) (hlen : goLen c.charSeparator = 1) :
    c.ToText morse ++ [' ']
      = (Split morse (c.charSeparator ++ Space ++ c.charSeparator)).foldl c.wordStep [] := by
  unfold Converter.ToText
  dsimp only
  rw [removeLast_goLen_one c _ ht hlen, foldl_wordStep, List.nil_append]
  have hsep : c.charSeparator ++ Space ++ c.charSeparator ≠ [] := by simp [Space]
  obtain ⟨ws, w, hw⟩ : ∃ ws w, Split morse (c.charSeparator ++ Space ++ c.charSeparator)
      = ws ++ [w] := by
    have := Split_ne_nil morse _ hsep
    exact ⟨_, _, (List.dropLast_append_getLast this).symm⟩
  rw [hw, List.flatMap_append]
  simp only [List.flatMap_cons, List.flatMap_nil, List.append_nil]
  unfold Converter.wordStep
  dsimp only
  rw [← List.append_assoc, List.dropLast_concat]

end Morse

/-! ## The claims -/

namespace Morse

/-- C1 (as stated, refuted): the letters Ь and Ъ share the code `-..-`, so
whatever order the inverse table was built in, the round trip
`ToText (ToMorse s)` cannot give back `s` for every key `s` of
`DefaultMorse`: it gives the same letter for Ь and for Ъ. -/
theorem C1_roundtrip_counterexample :
    ¬ ∃ visit : List (Char × List Char), ∀ s ∈ DefaultMorseKeys,
        ToText visit (ToMorse unicodeToUpper visit [s]) = [unicodeToUpper s] := by
  rintro ⟨visit, h⟩
  have h1 := h 'Ь' (by decide)
  have h2 := h 'Ъ' (by decide)
  rw [ToMorse_single unicodeToUpper visit 'Ь' "-..-".toList (by decide) (by decide)] at h1
  rw [ToMorse_single unicodeToUpper visit 'Ъ' "-..-".toList (by decide) (by decide)] at h2
  rw [h1] at h2
  exact absurd h2 (by decide)

/-- C1 (amended): for every key `s` of `DefaultMorse` other than Ь and Ъ, and
every order in which the inverse table was built, decoding the encoding of the
one-symbol string `s` with the default converter gives back `uppercase(s)`;
for `s` one of Ь, Ъ the round trip gives one of these two letters. -/
theorem C1_roundtrip_symbol (upper : Char → Char) (visit : List (Char × List Char))
    (hup : ∀ k ∈ DefaultMorseKeys, upper k = k)
    (hperm : visit.Perm DefaultMorseEntries) (s : Char) (hs : s ∈ DefaultMorseKeys) :
    (s ≠ 'Ь' ∧ s ≠ 'Ъ' → ToText visit (ToMorse upper visit [s]) = [upper s]) ∧
    (s = 'Ь' ∨ s = 'Ъ' →
      ToText visit (ToMorse upper visit [s]) = ['Ь'] ∨
      ToText visit (ToMorse upper visit [s]) = ['Ъ']) := by
  obtain ⟨⟨k, code⟩, hmem, hk⟩ := List.mem_map.1 hs
  simp only at hk
  subst hk
  have hsh := DefaultMorse_shared_code (k, code) hmem
  simp only at hsh
  rw [ToMorse_single upper visit k code (hup k hs) hmem]
  constructor
  · rintro ⟨h1, h2⟩
    rw [hup k hs]
    exact ToText_code visit k k code hmem
      (reverse_default visit hperm k code hmem (hsh.1 h1 h2))
  · intro h
    have hc := hsh.2.2 h
    have hsome := foldl_set_isSome visit (fun _ => none) code
      (Or.inl ⟨k, hperm.mem_iff.2 hmem⟩)
    cases hr : reverseEncodingMap visit code with
    | none =>
      unfold reverseEncodingMap at hr
      rw [hr] at hsome
      simp at hsome
    | some k2 =>
      rw [ToText_code visit k k2 code hmem hr]
      have hm2 := hperm.mem_iff.1 (reverseEncodingMap_some visit code k2 hr)
      have := (DefaultMorse_shared_code (k2, code) hm2).2.1 hc
      simp only at this
      rcases this with h3 | h3
      · exact Or.inl (by rw [h3])
      · exact Or.inr (by rw [h3])

theorem C1_roundtrip_symbol_witness :
    (∀ k ∈ DefaultMorseKeys, unicodeToUpper k = k) ∧
    DefaultMorseEntries.Perm DefaultMorseEntries ∧ 'Ж' ∈ DefaultMorseKeys ∧
    ToText DefaultMorseEntries (ToMorse unicodeToUpper DefaultMorseEntries ['Ж'])
      = [unicodeToUpper 'Ж'] :=
  ⟨by decide, List.Perm.refl _, by decide,
    (C1_roundtrip_symbol unicodeToUpper DefaultMorseEntries (by decide) (List.Perm.refl _)
      'Ж' (by decide)).1 ⟨by decide, by decide⟩⟩

/-- C2: with the default converter, `ToMorse text` is, for every text and every
case mapping, the list of the codes `DefaultMorse[upper r]` of the runes `r`
of the text whose upper case is a key, in order, joined by single spaces with
no trailing space; runes not in the table contribute nothing.  In particular
`ToMorse "ТЕСТ" = "- . ... -"`. -/
theorem C2_ToMorse_reference :
    (∀ (upper : Char → Char) (visit : List (Char × List Char)) (text : List Char),
      ToMorse upper visit text
        = " ".toList.intercalate (text.filterMap (fun r => DefaultMorse.get? (upper r)))) ∧
    (∀ visit : List (Char × List Char),
      ToMorse unicodeToUpper visit "ТЕСТ".toList = "- . ... -".toList) := by
  refine ⟨fun upper visit text => ToMorse_eq_encodeSpec upper visit text, fun visit => ?_⟩
  rw [ToMorse_eq_encodeSpec]
  decide

/-- C3: with the default converter, `ToText m` is, for every Morse string `m`,
obtained by splitting `m` on three spaces into words, each word on one space
into codes, replacing the codes found in the inverse table by their symbols
and dropping the others, and joining the words with single spaces (the space
appended after the last word is trimmed).  In particular
`ToText "- . ... -" = "ТЕСТ"`, whatever order the inverse table was built in. -/
theorem C3_ToText_reference (visit : List (Char × List Char))
    (hperm : visit.Perm DefaultMorseEntries) :
    (∀ m : List Char,
      ToText visit m = " ".toList.intercalate
        ((Split m "   ".toList).map
          (fun word => (Split word " ".toList).filterMap (reverseEncodingMap visit)))) ∧
    ToText visit "- . ... -".toList = "ТЕСТ".toList := by
  refine ⟨fun m => ToText_eq_decodeSpec visit m, ?_⟩
  rw [ToText_eq_decodeSpec]
  have h1 : Split "- . ... -".toList "   ".toList = ["- . ... -".toList] := by decide
  have h2 : Split "- . ... -".toList " ".toList
      = ["-".toList, ".".toList, "...".toList, "-".toList] := by decide
  have rT := reverse_default visit hperm 'Т' "-".toList (by decide) (by decide)
  have rE := reverse_default visit hperm 'Е' ".".toList (by decide) (by decide)
  have rS := reverse_default visit hperm 'С' "...".toList (by decide) (by decide)
  unfold decodeSpec
  rw [h1, List.map_singleton, h2]
  simp only [List.filterMap_cons, List.filterMap_nil, rT, rE, rS]
  decide

theorem C3_ToText_reference_witness :
    DefaultMorseEntries.Perm DefaultMorseEntries ∧
    ToText DefaultMorseEntries "- . ... -".toList = "ТЕСТ".toList :=
  ⟨List.Perm.refl _, (C3_ToText_reference DefaultMorseEntries (List.Perm.refl _)).2⟩

end Morse

namespace Service

open Morse

/-- C4: for every input whose trimmed form `t` is not empty, `AutoConvert`
returns no error, and its result is `ToText t` when `t` contains one of the
characters `.`, `-`, `/`, and `ToMorse t` otherwise. -/
theorem C4_AutoConvert_direction (upper : Char → Char) (visit : List (Char × List Char))
    (input : List Char) (h : TrimSpace input ≠ []) :
    (AutoConvert upper visit input).2 = none ∧
    ((∃ ch ∈ TrimSpace input, ch = '.' ∨ ch = '-' ∨ ch = '/') →
      (AutoConvert upper visit input).1 = ToText visit (TrimSpace input)) ∧
    ((∀ ch ∈ TrimSpace input, ch ≠ '.' ∧ ch ≠ '-' ∧ ch ≠ '/') →
      (AutoConvert upper visit input).1 = ToMorse upper visit (TrimSpace input)) := by
  unfold AutoConvert
  dsimp only
  rw [if_neg h]
  by_cases hc : ContainsAny (TrimSpace input) ".-/".toList = true
  · rw [if_pos hc]
    refine ⟨rfl, fun _ => rfl, fun hall => ?_⟩
    obtain ⟨ch, hch, hor⟩ := (ContainsAny_morse _).1 hc
    have := hall ch hch
    rcases hor with h1 | h1 | h1
    · exact absurd h1 this.1
    · exact absurd h1 this.2.1
    · exact absurd h1 this.2.2
  · rw [if_neg hc]
    refine ⟨rfl, fun hex => ?_, fun _ => rfl⟩
    exact absurd ((ContainsAny_morse _).2 hex) hc

theorem C4_AutoConvert_direction_witness :
    (TrimSpace "SOS".toList ≠ [] ∧
      (AutoConvert unicodeToUpper DefaultMorseEntries "SOS".toList).1
        = ToMorse unicodeToUpper DefaultMorseEntries "SOS".toList) ∧
    (TrimSpace "... --- ...".toList ≠ [] ∧
      (AutoConvert unicodeToUpper DefaultMorseEntries "... --- ...".toList).1
        = ToText DefaultMorseEntries "... --- ...".toList) ∧
    (TrimSpace " ТЕСТ-ТЕСТ. ".toList ≠ [] ∧
      (AutoConvert unicodeToUpper DefaultMorseEntries " ТЕСТ-ТЕСТ. ".toList).1
        = ToText DefaultMorseEntries "ТЕСТ-ТЕСТ.".toList) :=
  ⟨⟨by decide,
      (C4_AutoConvert_direction unicodeToUpper DefaultMorseEntries "SOS".toList
        (by decide)).2.2 (by decide)⟩,
    ⟨by decide,
      (C4_AutoConvert_direction unicodeToUpper DefaultMorseEntries "... --- ...".toList
        (by decide)).2.1 (by decide)⟩,
    ⟨by decide,
      (C4_AutoConvert_direction unicodeToUpper DefaultMorseEntries " ТЕСТ-ТЕСТ. ".toList
        (by decide)).2.1 (by decide)⟩⟩

/-- C5: `AutoConvert` returns an error exactly when the input is empty or
made of white space only, that is when `strings.TrimSpace` of it is empty, and
the returned string is then empty; every other input succeeds, also when no
symbol is known and the converted result is the empty string (`"SOS"`). -/
theorem C5_AutoConvert_error (upper : Char → Char) (visit : List (Char × List Char))
    (input : List Char) :
    ((AutoConvert upper visit input).2 ≠ none ↔ TrimSpace input = []) ∧
    (TrimSpace input = [] ↔ ∀ ch ∈ input, isSpace ch = true) ∧
    ((AutoConvert upper visit input).2 = none ∨ (AutoConvert upper visit input).1 = []) ∧
    AutoConvert unicodeToUpper visit "SOS".toList = ([], none) := by
  refine ⟨?_, TrimSpace_eq_nil_iff input, ?_, ?_⟩
  · unfold AutoConvert
    dsimp only
    by_cases h : TrimSpace input = []
    · simp [h]
    · rw [if_neg h]
      split_ifs <;> simp [h]
  · unfold AutoConvert
    dsimp only
    by_cases h : TrimSpace input = []
    · simp [h]
    · rw [if_neg h]
      split_ifs <;> simp
  · have ht : TrimSpace "SOS".toList = "SOS".toList := by decide
    unfold AutoConvert
    dsimp only
    rw [ht, if_neg (by decide), if_neg (by decide), ToMorse_eq_encodeSpec]
    decide

end Service

namespace Morse

/-- C6: with the default converter (`IgnoreHandler`), a rune `r` whose upper
case is not a key of `DefaultMorse` is dropped and leaves no separator:
`ToMorse (a ++ [r] ++ b) = ToMorse (a ++ b)` for all texts `a`, `b`.  `ToMorse`
is a total function: it returns a string for every input. -/
theorem C6_unknown_dropped (upper : Char → Char) (visit : List (Char × List Char))
    (a b : List Char) (r : Char) (h : upper r ∉ DefaultMorseKeys) :
    ToMorse upper visit (a ++ [r] ++ b) = ToMorse upper visit (a ++ b) := by
  rw [ToMorse_eq_encodeSpec, ToMorse_eq_encodeSpec]
  unfold encodeSpec
  simp [List.filterMap_append, DefaultMorse_get?_none _ h]

theorem C6_unknown_dropped_witness :
    (unicodeToUpper '😀' ∉ DefaultMorseKeys ∧
      ToMorse unicodeToUpper DefaultMorseEntries ("ТЕ".toList ++ ['😀'] ++ "СТ".toList)
        = ToMorse unicodeToUpper DefaultMorseEntries ("ТЕ".toList ++ "СТ".toList)) ∧
    (unicodeToUpper 's' ∉ DefaultMorseKeys ∧
      ToMorse unicodeToUpper DefaultMorseEntries ("ТЕ".toList ++ ['s'] ++ "СТ".toList)
        = ToMorse unicodeToUpper DefaultMorseEntries ("ТЕ".toList ++ "СТ".toList)) :=
  ⟨⟨by decide, C6_unknown_dropped unicodeToUpper DefaultMorseEntries _ _ '😀' (by decide)⟩,
    ⟨by decide, C6_unknown_dropped unicodeToUpper DefaultMorseEntries _ _ 's' (by decide)⟩⟩

/-- C7 (the code at the failing input): with the character separator `·`
(one rune, two bytes) and trailing-separator mode disabled, `ToMorse "ЕЕ"`
is `.·`, while with the mode enabled it is `.·.·`: two runes were removed, the
separator and a code character, and a separator is left at the end; and
`ToMorse "Е"` is empty: the whole code was removed. -/
theorem C7_ToMorse_trim_bytes :
    (NewConverter DefaultMorse DefaultMorseEntries [WithCharSeparator "·".toList]).map
        (fun c => c.ToMorse unicodeToUpper "ЕЕ".toList) = some ".·".toList ∧
    (NewConverter DefaultMorse DefaultMorseEntries
        [WithCharSeparator "·".toList, WithTrailingSeparator true]).map
        (fun c => c.ToMorse unicodeToUpper "ЕЕ".toList) = some ".·.·".toList ∧
    (NewConverter DefaultMorse DefaultMorseEntries [WithCharSeparator "·".toList]).map
        (fun c => c.ToMorse unicodeToUpper "Е".toList) = some [] ∧
    (NewConverter DefaultMorse DefaultMorseEntries
        [WithCharSeparator "·".toList, WithTrailingSeparator true]).map
        (fun c => c.ToMorse unicodeToUpper "Е".toList) = some ".·".toList := by
  decide

/-- C8 (the code at the failing input): with the character separator `||`
and trailing-separator mode disabled, `ToText "-||."` is `Т`, whatever order
the inverse table was built in: the trimming removed two runes, the space
appended after the word and the decoded symbol Е. -/
theorem C8_ToText_trim_symbol (visit : List (Char × List Char))
    (hperm : visit.Perm DefaultMorseEntries) :
    (NewConverter DefaultMorse visit [WithCharSeparator "||".toList]).map
        (fun c => c.ToText "-||.".toList) = some "Т".toList ∧
    (NewConverter DefaultMorse visit
        [WithCharSeparator "||".toList, WithTrailingSeparator true]).map
        (fun c => c.ToText "-||.".toList) = some "ТЕ ".toList := by
  have h1 : Split "-||.".toList ("||".toList ++ Space ++ "||".toList) = ["-||.".toList] := by
    decide
  have h2 : Split "-||.".toList "||".toList = ["-".toList, ".".toList] := by decide
  have rT := reverse_default visit hperm 'Т' "-".toList (by decide) (by decide)
  have rE := reverse_default visit hperm 'Е' ".".toList (by decide) (by decide)
  have hb : ∀ c : Converter, c.charSeparator = "||".toList →
      c.morseToRune = reverseEncodingMap visit →
      (Split "-||.".toList (c.charSeparator ++ Space ++ c.charSeparator)).foldl c.wordStep []
        = "ТЕ ".toList := by
    intro c hc hm
    rw [hc, h1]
    simp only [List.foldl_cons, List.foldl_nil, Converter.wordStep, hc, h2,
      Converter.textStep, hm, rT, rE]
    decide
  constructor
  · show some (Converter.ToText _ _) = _
    unfold Converter.ToText
    dsimp only
    rw [hb _ rfl rfl]
    rfl
  · show some (Converter.ToText _ _) = _
    unfold Converter.ToText
    dsimp only
    rw [hb _ rfl rfl]
    rfl

theorem C8_ToText_trim_symbol_witness :
    DefaultMorseEntries.Perm DefaultMorseEntries ∧
    (NewConverter DefaultMorse DefaultMorseEntries [WithCharSeparator "||".toList]).map
        (fun c => c.ToText "-||.".toList) = some "Т".toList :=
  ⟨List.Perm.refl _, (C8_ToText_trim_symbol DefaultMorseEntries (List.Perm.refl _)).1⟩

/-- C9 (the code at the failing input): the default converter has the word
separator of three spaces, and `ToMorse "ТЕСТ ТЕСТ"` is
`- . ... - - . ... -`: the space of the text is an unknown symbol, dropped by
the handler, and the two words are separated by one character separator, not
by the word separator.  With the entry `' ': Space` added to the table, the
same call gives `- . ... -   - . ... -`. -/
theorem C9_ToMorse_no_word_separator (visit : List (Char × List Char)) :
    (DefaultConverter visit).wordSeparator = "   ".toList ∧
    DefaultMorse.get? ' ' = none ∧
    ToMorse unicodeToUpper visit "ТЕСТ ТЕСТ".toList = "- . ... - - . ... -".toList ∧
    ToMorse unicodeToUpper visit "ТЕСТ ТЕСТ".toList
      ≠ ToMorse unicodeToUpper visit "ТЕСТ".toList ++ (DefaultConverter visit).wordSeparator
          ++ ToMorse unicodeToUpper visit "ТЕСТ".toList ∧
    Converter.ToMorse unicodeToUpper
        (newConverter (some (DefaultMorseEntries ++ [(' ', Space)]))
          (DefaultMorseEntries ++ [(' ', Space)]) defaultOptions) "ТЕСТ ТЕСТ".toList
      = "- . ... -   - . ... -".toList := by
  refine ⟨rfl, by decide, ?_, ?_, by decide⟩
  · rw [ToMorse_eq_encodeSpec]
    decide
  · have hw : (DefaultConverter visit).wordSeparator = "   ".toList := rfl
    rw [ToMorse_eq_encodeSpec, ToMorse_eq_encodeSpec, hw]
    decide

/-- C10: for every converter `c` with handler `c.Handling` and every text, the
output of `ToMorse` is the concatenation, rune by rune, of: the code and a
character separator for a rune that (case folded if configured) has a code;
and for a rune `sym` without a code, the string `c.Handling (ErrNoEncoding sym)`
followed by a character separator if and only if that string is not empty.
This is the whole output with trailing-separator mode enabled, where the
string of the handler is spliced in at the position of the rune, and it is the
output before the final trimming otherwise.  When every rune has a code the
handler is not used: any other handler gives the same output. -/
theorem C10_handler_contract (upper : Char → Char) (c : Converter) :
    (∀ text : List Char,
      c.ToMorse upper text = c.removeLast (text.flatMap (spliceSpec upper c))) ∧
    (∀ (a b : List Char) (ch : Char), c.trailingSeparator = true →
      c.runeToMorse.get? (if c.convertToUpper then upper ch else ch) = none →
      c.ToMorse upper (a ++ [ch] ++ b)
        = c.ToMorse upper a
          ++ (c.Handling ⟨[if c.convertToUpper then upper ch else ch]⟩
            ++ (if c.Handling ⟨[if c.convertToUpper then upper ch else ch]⟩ = [] then []
                else c.charSeparator))
          ++ c.ToMorse upper b) ∧
    (∀ (text : List Char) (h2 : ErrorHandler),
      (∀ ch ∈ text,
        (c.runeToMorse.get? (if c.convertToUpper then upper ch else ch)).isSome = true) →
      Converter.ToMorse upper { c with Handling := h2 } text = c.ToMorse upper text) := by
  have hbuf := ToMorse_eq_removeLast upper
  refine ⟨hbuf c, fun a b ch ht hs => ?_, fun text h2 hall => ?_⟩
  · rw [hbuf c, hbuf c a, hbuf c b, removeLast_of_trailing _ _ ht,
      removeLast_of_trailing _ _ ht, removeLast_of_trailing _ _ ht,
      List.flatMap_append, List.flatMap_append]
    congr 2
    simp only [List.flatMap_cons, List.flatMap_nil, List.append_nil]
    unfold spliceSpec
    dsimp only
    rw [hs]
    by_cases h1 : c.Handling ⟨[if c.convertToUpper = true then upper ch else ch]⟩ = []
    · simp [h1]
    · simp [h1]
  · rw [hbuf, hbuf c]
    have : text.flatMap (spliceSpec upper { c with Handling := h2 })
        = text.flatMap (spliceSpec upper c) := by
      apply List.flatMap_congr
      intro ch hch
      have hsome := hall ch hch
      unfold spliceSpec
      dsimp only at hsome ⊢
      cases hg : c.runeToMorse.get? (if c.convertToUpper = true then upper ch else ch) with
      | none => rw [hg] at hsome; simp at hsome
      | some code => rfl
    rw [this]
    rfl

theorem C10_handler_contract_witness :
    DefaultMorse.get? 'x' = none ∧
    Converter.ToMorse unicodeToUpper
        (newConverter DefaultMorse DefaultMorseEntries
          [WithHandler (fun e => '<' :: e.Text ++ ['>']), WithTrailingSeparator true])
        ("Т".toList ++ ['x'] ++ "Е".toList)
      = "- ".toList ++ ("<x>".toList ++ " ".toList) ++ ". ".toList :=
  ⟨by decide,
    (C10_handler_contract unicodeToUpper
      (newConverter DefaultMorse DefaultMorseEntries
        [WithHandler (fun e => '<' :: e.Text ++ ['>']), WithTrailingSeparator true])).2.1
      "Т".toList "Е".toList 'x' rfl (by decide)⟩

/-- C11 (as stated, refuted): for the empty, non-nil table `NewConverter`
returns a converter. -/
theorem C11_empty_table_counterexample :
    (NewConverter (some []) [] []).isSome = true := by
  decide

/-- C11 (amended): `NewConverter` panics exactly when the table passed to it is
nil; for every non-nil table, the empty one included, and every list of
options it returns a converter. -/
theorem C11_NewConverter_panics_iff_nil (convertingMap : EncodingMap)
    (visit : List (Char × List Char)) (options : List ConverterOption) :
    (NewConverter convertingMap visit options = none ↔ convertingMap = none) ∧
    (convertingMap ≠ none →
      NewConverter convertingMap visit options
        = some (newConverter convertingMap visit options)) := by
  cases convertingMap with
  | none => simp [NewConverter]
  | some l => simp [NewConverter]

theorem C11_NewConverter_panics_iff_nil_witness :
    DefaultMorse ≠ none ∧
    NewConverter DefaultMorse DefaultMorseEntries []
      = some (newConverter DefaultMorse DefaultMorseEntries []) :=
  ⟨by decide,
    (C11_NewConverter_panics_iff_nil DefaultMorse DefaultMorseEntries []).2 (by decide)⟩

/-- C12 (as stated, refuted): `DefaultMorse` is not injective, Ь and Ъ have the
code `-..-`; and the inverse table depends on the order in which the map is
ranged over: in the order of the source `-..-` is mapped to Ъ, in the
reverse order to Ь. -/
theorem C12_injective_counterexample :
    ¬ (∀ p ∈ DefaultMorseEntries, ∀ q ∈ DefaultMorseEntries, p.2 = q.2 → p.1 = q.1) ∧
    reverseEncodingMap DefaultMorseEntries "-..-".toList = some 'Ъ' ∧
    reverseEncodingMap DefaultMorseEntries.reverse "-..-".toList = some 'Ь' := by
  decide

/-- C12 (amended): the only code collision of `DefaultMorse` is that of Ь and
Ъ, which share `-..-`: two distinct symbols with the same code are Ь and Ъ.
The inverse table therefore does not depend on the map iteration order at any
code other than `-..-`, and `-..-` is mapped to Ь or to Ъ. -/
theorem C12_only_collision (visit1 visit2 : List (Char × List Char))
    (h1 : visit1.Perm DefaultMorseEntries) (h2 : visit2.Perm DefaultMorseEntries) :
    (∀ p ∈ DefaultMorseEntries, ∀ q ∈ DefaultMorseEntries, p.2 = q.2 → p.1 ≠ q.1 →
      (p.1 = 'Ь' ∧ q.1 = 'Ъ') ∨ (p.1 = 'Ъ' ∧ q.1 = 'Ь')) ∧
    (∀ c : List Char, c ≠ "-..-".toList →
      reverseEncodingMap visit1 c = reverseEncodingMap visit2 c) ∧
    (reverseEncodingMap visit1 "-..-".toList = some 'Ь' ∨
      reverseEncodingMap visit1 "-..-".toList = some 'Ъ') := by
  refine ⟨by decide, fun c hc => ?_, ?_⟩
  · by_cases hex : ∃ p ∈ DefaultMorseEntries, p.2 = c
    · obtain ⟨⟨k, c2⟩, hp, hpc⟩ := hex
      simp only at hpc
      subst hpc
      rw [reverse_default visit1 h1 k c2 hp hc, reverse_default visit2 h2 k c2 hp hc]
    · have hno : ∀ (visit : List (Char × List Char)), visit.Perm DefaultMorseEntries →
          ∀ k, (k, c) ∉ visit := by
        intro visit hv k hk
        exact hex ⟨(k, c), hv.mem_iff.1 hk, rfl⟩
      rw [reverseEncodingMap_none visit1 c (hno visit1 h1),
        reverseEncodingMap_none visit2 c (hno visit2 h2)]
  · have hsome := foldl_set_isSome visit1 (fun _ => none) "-..-".toList
      (Or.inl ⟨'Ь', h1.mem_iff.2 (by decide)⟩)
    cases hr : reverseEncodingMap visit1 "-..-".toList with
    | none =>
      unfold reverseEncodingMap at hr
      rw [hr] at hsome
      simp at hsome
    | some k2 =>
      have hm := h1.mem_iff.1 (reverseEncodingMap_some visit1 _ k2 hr)
      have := (DefaultMorse_shared_code (k2, "-..-".toList) hm).2.1 rfl
      simp only at this
      rcases this with h3 | h3
      · exact Or.inl (by rw [h3])
      · exact Or.inr (by rw [h3])

theorem C12_only_collision_witness :
    DefaultMorseEntries.Perm DefaultMorseEntries ∧
    DefaultMorseEntries.reverse.Perm DefaultMorseEntries ∧
    reverseEncodingMap DefaultMorseEntries "...".toList
      = reverseEncodingMap DefaultMorseEntries.reverse "...".toList :=
  ⟨List.Perm.refl _, List.reverse_perm _,
    (C12_only_collision DefaultMorseEntries DefaultMorseEntries.reverse (List.Perm.refl _)
      (List.reverse_perm _)).2.1 "...".toList (by decide)⟩

theorem cyrillic_capital_mem_keys (n : Nat) (h1 : 0x410 ≤ n) (h2 : n ≤ 0x42F) :
    Char.ofNat n ∈ DefaultMorseKeys := by
  interval_cases n <;> decide

theorem digit_mem_keys (n : Nat) (h1 : 0x30 ≤ n) (h2 : n ≤ 0x39) :
    Char.ofNat n ∈ DefaultMorseKeys := by
  interval_cases n <;> decide

/-- C13: every key of `DefaultMorse` is stored upper case (`unicode.ToUpper`
leaves it unchanged), every code is a non-empty string of the characters `.`
and `-` only (so no code contains a space), and the keys are exactly the 32
Cyrillic capital letters А..Я (U+0410..U+042F, without Ё), the digits 0-9 and
the ten punctuation marks `. , : ? ' - / ( ) "`: 52 distinct keys. -/
theorem C13_DefaultMorse_well_formed :
    (∀ k ∈ DefaultMorseKeys, unicodeToUpper k = k) ∧
    (∀ p ∈ DefaultMorseEntries, p.2 ≠ [] ∧ ∀ ch ∈ p.2, ch = '.' ∨ ch = '-') ∧
    DefaultMorseKeys.Nodup ∧ DefaultMorseKeys.length = 52 ∧
    (∀ ch : Char, ch ∈ DefaultMorseKeys ↔
      (0x410 ≤ ch.toNat ∧ ch.toNat ≤ 0x42F) ∨ (0x30 ≤ ch.toNat ∧ ch.toNat ≤ 0x39) ∨
      ch ∈ ['.', ',', ':', '?', '\'', '-', '/', '(', ')', '"']) := by
  refine ⟨by decide, by decide, by decide, by decide, fun ch => ⟨fun h => ?_, fun h => ?_⟩⟩
  · have hall : ∀ k ∈ DefaultMorseKeys,
        (0x410 ≤ k.toNat ∧ k.toNat ≤ 0x42F) ∨ (0x30 ≤ k.toNat ∧ k.toNat ≤ 0x39) ∨
        k ∈ ['.', ',', ':', '?', '\'', '-', '/', '(', ')', '"'] := by
      decide
    exact hall ch h
  · rcases h with ⟨h1, h2⟩ | ⟨h1, h2⟩ | h
    · rw [← Char.ofNat_toNat ch]
      exact cyrillic_capital_mem_keys _ h1 h2
    · rw [← Char.ofNat_toNat ch]
      exact digit_mem_keys _ h1 h2
    · have hall : ∀ k ∈ ['.', ',', ':', '?', '\'', '-', '/', '(', ')', '"'],
          k ∈ DefaultMorseKeys := by
        decide
      exact hall ch h

/-- C14 (the code at the failing input): a converter built by `NewConverter`
with no option has case folding disabled, so `NewConverter(DefaultMorse)
.ToMorse("тест")` is the empty string, while on the upper case of the text,
`"ТЕСТ"`, the same converter gives `- . ... -`: the lowercase characters were
not converted to upper case. -/
theorem C14_ToMorse_lowercase_not_folded :
    (NewConverter DefaultMorse DefaultMorseEntries []).map
        (fun c => c.ToMorse unicodeToUpper "тест".toList) = some [] ∧
    "тест".toList.map unicodeToUpper = "ТЕСТ".toList ∧
    (NewConverter DefaultMorse DefaultMorseEntries []).map
        (fun c => c.ToMorse unicodeToUpper ("тест".toList.map unicodeToUpper))
      = some "- . ... -".toList ∧
    (NewConverter DefaultMorse DefaultMorseEntries []).map
        (fun c => c.convertToUpper) = some false := by
  decide

/-- With case folding enabled (`WithLowercaseHandling(true)`, as
`DefaultConverter` has), `ToMorse(text) = ToMorse(uppercase(text))`. -/
theorem ToMorse_map_upper_of_convertToUpper (upper : Char → Char) (c : Converter)
    (text : List Char) (hc : c.convertToUpper = true)
    (hid : ∀ r ∈ text, upper (upper r) = upper r) :
    c.ToMorse upper text = c.ToMorse upper (text.map upper) := by
  rw [ToMorse_eq_removeLast, ToMorse_eq_removeLast, List.flatMap_map]
  congr 1
  apply List.flatMap_congr
  intro r hr
  unfold spliceSpec
  simp only [hc, if_true, hid r hr]

/-- C15 (the code at the failing inputs): with the Cyrillic table and whatever
order the inverse table was built in, the package-level `ToMorse("Test")` with
Latin letters is the empty string, not `- . ... -`, and `ToText("- . ... -")`
is the Cyrillic `ТЕСТ` (U+0422 U+0415 U+0421 U+0422), not the Latin `TEST`. -/
theorem C15_documented_examples_code (visit : List (Char × List Char))
    (hperm : visit.Perm DefaultMorseEntries) :
    ToMorse unicodeToUpper visit "Test".toList = [] ∧
    ToMorse unicodeToUpper visit "Test".toList ≠ "- . ... -".toList ∧
    ToText visit "- . ... -".toList = "ТЕСТ".toList ∧
    ToText visit "- . ... -".toList ≠ "TEST".toList ∧
    ("ТЕСТ".toList.map Char.toNat = [0x422, 0x415, 0x421, 0x422] ∧
      "TEST".toList.map Char.toNat = [0x54, 0x45, 0x53, 0x54]) := by
  have hm : ToMorse unicodeToUpper visit "Test".toList = [] := by
    rw [ToMorse_eq_encodeSpec]
    decide
  have ht : ToText visit "- . ... -".toList = "ТЕСТ".toList := by
    have rT := reverse_default visit hperm 'Т' "-".toList (by decide) (by decide)
    have rE := reverse_default visit hperm 'Е' ".".toList (by decide) (by decide)
    have rS := reverse_default visit hperm 'С' "...".toList (by decide) (by decide)
    have h1 : Split "- . ... -".toList "   ".toList = ["- . ... -".toList] := by decide
    have h2 : Split "- . ... -".toList " ".toList
        = ["-".toList, ".".toList, "...".toList, "-".toList] := by decide
    rw [ToText_eq_decodeSpec]
    unfold decodeSpec
    rw [h1, List.map_singleton, h2]
    simp only [List.filterMap_cons, List.filterMap_nil, rT, rE, rS]
    decide
  refine ⟨hm, ?_, ht, ?_, by decide, by decide⟩
  · rw [hm]
    decide
  · rw [ht]
    decide

theorem C15_documented_examples_code_witness :
    DefaultMorseEntries.Perm DefaultMorseEntries ∧
    ToMorse unicodeToUpper DefaultMorseEntries "Test".toList = [] ∧
    ToText DefaultMorseEntries "- . ... -".toList = "ТЕСТ".toList :=
  ⟨List.Perm.refl _,
    (C15_documented_examples_code DefaultMorseEntries (List.Perm.refl _)).1,
    (C15_documented_examples_code DefaultMorseEntries (List.Perm.refl _)).2.2.1⟩

/-! ### Tables in general -/

theorem mem_of_lookup (entries : List (Char × List Char)) (k : Char) (c : List Char)
    (h : entries.lookup k = some c) : (k, c) ∈ entries := by
  induction entries with
  | nil => simp at h
  | cons p rest ih =>
    obtain ⟨k2, c2⟩ := p
    by_cases hk : k = k2
    · subst hk
      simp [List.lookup] at h
      simp [h]
    · have hb : (k == k2) = false := by simpa using hk
      simp only [List.lookup, hb] at h
      exact List.mem_cons_of_mem _ (ih h)

theorem lookup_of_mem_nodup (entries : List (Char × List Char))
    (hnd : (entries.map Prod.fst).Nodup) (k : Char) (c : List Char)
    (h : (k, c) ∈ entries) : entries.lookup k = some c := by
  induction entries with
  | nil => simp at h
  | cons p rest ih =>
    obtain ⟨k2, c2⟩ := p
    rw [List.map_cons, List.nodup_cons] at hnd
    rcases List.mem_cons.1 h with h1 | h1
    · have hk : k = k2 := congrArg Prod.fst h1
      have hc : c = c2 := congrArg Prod.snd h1
      subst hk
      subst hc
      simp [List.lookup]
    · have hk : k ≠ k2 := by
        intro hk
        subst hk
        exact hnd.1 (List.mem_map.2 ⟨(k, c), h1, rfl⟩)
      have hb : (k == k2) = false := by simpa using hk
      simp only [List.lookup, hb]
      exact ih hnd.2 h1

theorem splitScan_no_space (sep s : List Char) (h : ' ' ∉ s) :
    splitScan (' ' :: sep) s 0 = [s] := by
  induction s with
  | nil => rfl
  | cons ch rest ih =>
    have hch : ' ' ≠ ch := fun e => h (by rw [e]; exact List.mem_cons_self _ _)
    have hrest : ' ' ∉ rest := fun e => h (List.mem_cons_of_mem _ e)
    have hp : (' ' :: sep).isPrefixOf (ch :: rest) = false := by
      rw [List.isPrefixOf_cons₂]
      simp [hch]
    unfold splitScan
    rw [hp, ih hrest]
    rfl

theorem ToText_single_code (c : Converter) (hsep : c.charSeparator = " ".toList)
    (ht : c.trailingSeparator = false) (code : List Char) (hns : ' ' ∉ code) (s : Char)
    (hr : c.morseToRune code = some s) : c.ToText code = [s] := by
  have h3 : Split code (" ".toList ++ Space ++ " ".toList) = [code] := by
    unfold Split
    rw [if_neg (by decide)]
    exact splitScan_no_space _ code hns
  have h1 : Split code " ".toList = [code] := by
    unfold Split
    rw [if_neg (by decide)]
    exact splitScan_no_space _ code hns
  unfold Converter.ToText
  dsimp only
  rw [removeLast_goLen_one c _ ht (by rw [hsep]; rfl), hsep, h3]
  simp only [List.foldl_cons, List.foldl_nil, Converter.wordStep, hsep, h1,
    Converter.textStep, hr]
  rfl

theorem splitScan_not_mem (x : Char) (sep s : List Char) (h : x ∉ s) :
    splitScan (x :: sep) s 0 = [s] := by
  induction s with
  | nil => rfl
  | cons ch rest ih =>
    have hch : x ≠ ch := fun e => h (by rw [e]; exact List.mem_cons_self _ _)
    have hrest : x ∉ rest := fun e => h (List.mem_cons_of_mem _ e)
    have hp : (x :: sep).isPrefixOf (ch :: rest) = false := by
      rw [List.isPrefixOf_cons₂]
      simp [hch]
    unfold splitScan
    rw [hp, ih hrest]
    rfl

theorem Split_not_mem (x : Char) (sep s : List Char) (h : x ∉ s) :
    Split s (x :: sep) = [s] := by
  unfold Split
  rw [if_neg (List.cons_ne_nil _ _)]
  exact splitScan_not_mem x sep s h

theorem toOption_morseToRune (o : OptionCall) (c : Converter) :
    (o.toOption c).morseToRune = c.morseToRune := by
  cases o <;> rfl

theorem foldl_options_morseToRune (opts : List OptionCall) (c : Converter) :
    ((opts.map OptionCall.toOption).foldl (fun c opt => opt c) c).morseToRune
      = c.morseToRune := by
  induction opts generalizing c with
  | nil => rfl
  | cons o rest ih =>
    rw [List.map_cons, List.foldl_cons, ih, toOption_morseToRune]

theorem newConverter_morseToRune (convertingMap : EncodingMap)
    (visit : List (Char × List Char)) (opts : List OptionCall) :
    (newConverter convertingMap visit (opts.map OptionCall.toOption)).morseToRune
      = reverseEncodingMap visit := by
  unfold newConverter
  dsimp only
  split_ifs
  · exact foldl_options_morseToRune opts _
  · exact foldl_options_morseToRune opts _

theorem ToText_buffer_single_code (c : Converter) (x : Char)
    (hsep : c.charSeparator = [x]) (code : List Char) (hx : x ∉ code) (s : Char)
    (hr : c.morseToRune code = some s) :
    (Split code (c.charSeparator ++ Space ++ c.charSeparator)).foldl c.wordStep []
      = [s, ' '] := by
  have h3 : Split code ([x] ++ Space ++ [x]) = [code] := Split_not_mem x _ code hx
  have h1 : Split code [x] = [code] := Split_not_mem x [] code hx
  rw [hsep, h3]
  simp only [List.foldl_cons, List.foldl_nil, Converter.wordStep, hsep, h1,
    Converter.textStep, hr]
  rfl

/-- C16 (as stated, refuted): a code that holds the character separator is not
decoded to its symbol.  For the table that maps `A` to `. .` the inverse
table maps `. .` to `A`, but `ToText(". .")` with `NewConverter` of that table is the
empty string; and for `DefaultMorse` with the entry `' ': Space` added, the
inverse table maps `" "` to the space, but `ToText(" ")` is the empty string. -/
theorem C16_decode_counterexample :
    reverseEncodingMap [('A', ". .".toList)] ". .".toList = some 'A' ∧
    (NewConverter (some [('A', ". .".toList)]) [('A', ". .".toList)] []).map
        (fun cv => cv.ToText ". .".toList) = some [] ∧
    reverseEncodingMap (DefaultMorseEntries ++ [(' ', Space)]) Space = some ' ' ∧
    (NewConverter (some (DefaultMorseEntries ++ [(' ', Space)]))
        (DefaultMorseEntries ++ [(' ', Space)]) []).map
        (fun cv => cv.ToText Space) = some [] := by
  decide

/-- C16 (amended): for every encoding table (a map: keys distinct) and every
order in which it is ranged over, the inverse table has as keys exactly the
codes that occur in the table, and maps every such code `c` to a symbol `s` of
the table with `t[s] = c`, so to exactly one of the symbols that share `c`;
decoding `c` with a converter built from the table by `NewConverter` with any
of the package's options returns that symbol (the inverse table of a
converter is fixed at construction, and `ToText` is a function of the
converter and the input) when the character separator is a single one-byte
rune that does not occur in `c` and trailing-separator mode is disabled, and
that symbol followed by one space when the mode is enabled; and when the table
is injective the inverse table maps `t[s]` to `s` for every symbol `s` of the
table. -/
theorem C16_inverse_table (entries visit : List (Char × List Char))
    (hnd : (entries.map Prod.fst).Nodup) (hperm : visit.Perm entries) :
    (∀ c : List Char, (reverseEncodingMap visit c).isSome = true ↔ ∃ s, (s, c) ∈ entries) ∧
    (∀ (c : List Char) (s : Char), reverseEncodingMap visit c = some s →
      EncodingMap.get? (some entries) s = some c) ∧
    (∀ (opts : List OptionCall) (cv : Converter) (c : List Char) (s x : Char),
      NewConverter (some entries) visit (opts.map OptionCall.toOption) = some cv →
      reverseEncodingMap visit c = some s → cv.charSeparator = [x] → x ∉ c →
      (cv.trailingSeparator = false → runeLen x = 1 → cv.ToText c = [s]) ∧
      (cv.trailingSeparator = true → cv.ToText c = [s, ' '])) ∧
    ((∀ p ∈ entries, ∀ q ∈ entries, p.2 = q.2 → p.1 = q.1) →
      ∀ (s : Char) (c : List Char), EncodingMap.get? (some entries) s = some c →
        reverseEncodingMap visit c = some s) := by
  refine ⟨fun c => ⟨fun h => ?_, fun h => ?_⟩, fun c s h => ?_,
    fun opts cv c s x hcv h hsep hx => ?_, fun hinj s c h => ?_⟩
  · cases hr : reverseEncodingMap visit c with
    | none => rw [hr] at h; simp at h
    | some s => exact ⟨s, hperm.mem_iff.1 (reverseEncodingMap_some visit c s hr)⟩
  · obtain ⟨s, hs⟩ := h
    exact foldl_set_isSome visit (fun _ => none) c (Or.inl ⟨s, hperm.mem_iff.2 hs⟩)
  · exact lookup_of_mem_nodup entries hnd s c
      (hperm.mem_iff.1 (reverseEncodingMap_some visit c s h))
  · have hcv2 : newConverter (some entries) visit (opts.map OptionCall.toOption) = cv :=
      Option.some.inj hcv
    have hm : cv.morseToRune = reverseEncodingMap visit := by
      rw [← hcv2]
      exact newConverter_morseToRune _ visit opts
    have hbuf := ToText_buffer_single_code cv x hsep c hx s (by rw [hm]; exact h)
    constructor
    · intro ht hl
      unfold Converter.ToText
      dsimp only
      rw [hbuf, removeLast_goLen_one cv _ ht (by rw [hsep]; simp [goLen, hl])]
      rfl
    · intro ht
      unfold Converter.ToText
      dsimp only
      rw [hbuf, removeLast_of_trailing cv _ ht]
  · have hmem : (s, c) ∈ entries := mem_of_lookup entries s c h
    exact reverseEncodingMap_unique visit entries hperm c s hmem
      (fun q hq hc => hinj q hq (s, c) hmem hc)

theorem C16_inverse_table_witness :
    ([('A', ".-".toList), ('B', ".-".toList)].map Prod.fst).Nodup ∧
    [('B', ".-".toList), ('A', ".-".toList)].Perm [('A', ".-".toList), ('B', ".-".toList)] ∧
    reverseEncodingMap [('B', ".-".toList), ('A', ".-".toList)] ".-".toList = some 'A' ∧
    '/' ∉ ".-".toList ∧ runeLen '/' = 1 ∧
    Converter.ToText
        (newConverter (some [('A', ".-".toList), ('B', ".-".toList)])
          [('B', ".-".toList), ('A', ".-".toList)]
          ([OptionCall.charSeparator "/".toList, OptionCall.lowercaseHandling true].map
            OptionCall.toOption))
        ".-".toList = ['A'] :=
  ⟨by decide, List.Perm.swap _ _ _, by decide, by decide, by decide,
    ((C16_inverse_table [('A', ".-".toList), ('B', ".-".toList)]
      [('B', ".-".toList), ('A', ".-".toList)] (by decide) (List.Perm.swap _ _ _)).2.2.1
      [OptionCall.charSeparator "/".toList, OptionCall.lowercaseHandling true] _
      ".-".toList 'A' '/' rfl (by decide) rfl (by decide)).1 rfl (by decide)⟩

/-! ### Splitting a joined list of codes -/

theorem intercalate_cons_cons (sep w w2 : List Char) (r : List (List Char)) :
    sep.intercalate (w :: w2 :: r) = w ++ sep ++ sep.intercalate (w2 :: r) := by
  simp [List.intercalate, List.intersperse]

theorem intercalate_singleton (sep w : List Char) : sep.intercalate [w] = w := by
  simp [List.intercalate, List.intersperse]

theorem splitScan_prepend (sep w s : List Char) (hw : ' ' ∉ w) (x : List Char)
    (xs : List (List Char)) (h : splitScan (' ' :: sep) s 0 = x :: xs) :
    splitScan (' ' :: sep) (w ++ s) 0 = (w ++ x) :: xs := by
  induction w with
  | nil => simpa using h
  | cons ch rest ih =>
    have hch : ' ' ≠ ch := fun e => hw (by rw [e]; exact List.mem_cons_self _ _)
    have hrest : ' ' ∉ rest := fun e => hw (List.mem_cons_of_mem _ e)
    have hp : (' ' :: sep).isPrefixOf (ch :: (rest ++ s)) = false := by
      rw [List.isPrefixOf_cons₂]
      simp [hch]
    rw [List.cons_append]
    unfold splitScan
    rw [hp, ih hrest]
    rfl

theorem splitScan_space_cons (s : List Char) :
    splitScan [' '] (' ' :: s) 0 = [] :: splitScan [' '] s 0 := by
  simp [splitScan]

theorem splitScan_three_one_space (x : Char) (s : List Char) (hx : ' ' ≠ x) :
    splitScan "   ".toList (' ' :: x :: s) 0
      = consHead ' ' (splitScan "   ".toList (x :: s) 0) := by
  have hp : "   ".toList.isPrefixOf (' ' :: x :: s) = false := by
    show [' ', ' ', ' '].isPrefixOf (' ' :: x :: s) = false
    rw [List.isPrefixOf_cons₂, List.isPrefixOf_cons₂]
    simp [hx]
  rw [splitScan, hp]
  rfl

theorem intercalate_head (L : List (List Char)) (w : List Char) (hw : w ≠ []) :
    ∃ x tl, " ".toList.intercalate (w :: L) = x :: tl ∧ x ∈ w := by
  cases w with
  | nil => exact absurd rfl hw
  | cons x w2 =>
    cases L with
    | nil => exact ⟨x, w2, intercalate_singleton _ _, List.mem_cons_self _ _⟩
    | cons w3 r =>
      exact ⟨x, _, by rw [intercalate_cons_cons]; rfl, List.mem_cons_self _ _⟩

theorem Split_space_intercalate (L : List (List Char)) (hL : ∀ w ∈ L, ' ' ∉ w)
    (hne : L ≠ []) : Split (" ".toList.intercalate L) " ".toList = L := by
  unfold Split
  rw [if_neg (by decide)]
  induction L with
  | nil => exact absurd rfl hne
  | cons w rest ih =>
    have hw : ' ' ∉ w := hL w (List.mem_cons_self _ _)
    cases rest with
    | nil =>
      rw [intercalate_singleton]
      exact splitScan_no_space _ w hw
    | cons w2 r =>
      have ih2 := ih (fun v hv => hL v (List.mem_cons_of_mem _ hv)) (by simp)
      rw [intercalate_cons_cons, List.append_assoc]
      have hsp : splitScan " ".toList (" ".toList ++ " ".toList.intercalate (w2 :: r)) 0
          = [] :: (w2 :: r) := by
        show splitScan [' '] (' ' :: " ".toList.intercalate (w2 :: r)) 0 = _
        rw [splitScan_space_cons]
        exact congrArg _ ih2
      have := splitScan_prepend [] w _ hw [] (w2 :: r) hsp
      rw [List.append_nil] at this
      exact this

theorem Split_three_intercalate (L : List (List Char))
    (hL : ∀ w ∈ L, w ≠ [] ∧ ' ' ∉ w) (hne : L ≠ []) :
    Split (" ".toList.intercalate L) "   ".toList = [" ".toList.intercalate L] := by
  unfold Split
  rw [if_neg (by decide)]
  induction L with
  | nil => exact absurd rfl hne
  | cons w rest ih =>
    have hw := hL w (List.mem_cons_self _ _)
    cases rest with
    | nil =>
      rw [intercalate_singleton]
      exact splitScan_no_space _ w hw.2
    | cons w2 r =>
      have ih2 := ih (fun v hv => hL v (List.mem_cons_of_mem _ hv)) (by simp)
      have hw2 := hL w2 (List.mem_cons_of_mem _ (List.mem_cons_self _ _))
      obtain ⟨x, tl, htl, hx⟩ := intercalate_head r w2 hw2.1
      have hxs : ' ' ≠ x := fun e => hw2.2 (by rw [e]; exact hx)
      rw [intercalate_cons_cons, List.append_assoc]
      have hsp : splitScan "   ".toList (" ".toList ++ " ".toList.intercalate (w2 :: r)) 0
          = [" ".toList ++ " ".toList.intercalate (w2 :: r)] := by
        rw [htl] at ih2 ⊢
        show splitScan "   ".toList (' ' :: x :: tl) 0 = _
        rw [splitScan_three_one_space x tl hxs, ih2]
        rfl
      exact splitScan_prepend _ w _ hw.2 _ [] hsp

/-! ### Round trip of whole strings with the default converter -/

theorem DefaultMorse_code_shape :
    ∀ p ∈ DefaultMorseEntries, p.2 ≠ [] ∧ ' ' ∉ p.2 ∧ ∀ ch ∈ p.2, ch = '.' ∨ ch = '-' := by
  decide

theorem DefaultMorse_keys_not_space : ∀ k ∈ DefaultMorseKeys, isSpace k = false := by
  decide

theorem encode_codes (upper : Char → Char) (visit : List (Char × List Char))
    (s : List Char) (hup : ∀ k ∈ DefaultMorseKeys, upper k = k)
    (hperm : visit.Perm DefaultMorseEntries)
    (hs : ∀ r ∈ s, r ∈ DefaultMorseKeys ∧ r ≠ 'Ь' ∧ r ≠ 'Ъ') :
    ∃ L : List (List Char),
      s.filterMap (fun r => DefaultMorse.get? (upper r)) = L ∧
      (∀ w ∈ L, w ≠ [] ∧ ' ' ∉ w ∧ ∀ ch ∈ w, ch = '.' ∨ ch = '-') ∧
      L.filterMap (reverseEncodingMap visit) = s ∧ (L = [] → s = []) := by
  induction s with
  | nil => exact ⟨[], rfl, by simp, rfl, fun _ => rfl⟩
  | cons r rest ih =>
    obtain ⟨L, hL1, hL2, hL3, _⟩ := ih (fun q hq => hs q (List.mem_cons_of_mem _ hq))
    have hr := hs r (List.mem_cons_self _ _)
    obtain ⟨⟨k, code⟩, hmem, hk⟩ := List.mem_map.1 hr.1
    simp only at hk
    subst hk
    have hget : DefaultMorse.get? (upper k) = some code := by
      rw [hup k hr.1]
      exact DefaultMorse_lookup (k, code) hmem
    have hne := (DefaultMorse_shared_code (k, code) hmem).1 hr.2.1 hr.2.2
    have hrev := reverse_default visit hperm k code hmem hne
    refine ⟨code :: L, ?_, ?_, ?_, by simp⟩
    · rw [List.filterMap_cons, hget, hL1]
    · intro w hw
      rcases List.mem_cons.1 hw with h1 | h1
      · rw [h1]
        exact DefaultMorse_code_shape (k, code) hmem
      · exact hL2 w h1
    · rw [List.filterMap_cons, hrev, hL3]

theorem roundtrip_string (upper : Char → Char) (visit : List (Char × List Char))
    (s : List Char) (hup : ∀ k ∈ DefaultMorseKeys, upper k = k)
    (hperm : visit.Perm DefaultMorseEntries)
    (hs : ∀ r ∈ s, r ∈ DefaultMorseKeys ∧ r ≠ 'Ь' ∧ r ≠ 'Ъ') :
    ToText visit (ToMorse upper visit s) = s ∧
    Split (ToMorse upper visit s) "   ".toList = [ToMorse upper visit s] := by
  obtain ⟨L, hL1, hL2, hL3, hL4⟩ := encode_codes upper visit s hup hperm hs
  rw [ToMorse_eq_encodeSpec, ToText_eq_decodeSpec]
  unfold encodeSpec decodeSpec
  rw [hL1]
  by_cases hne : L = []
  · have hs0 := hL4 hne
    subst hs0
    subst hne
    have hnone : reverseEncodingMap visit [] = none := by
      apply reverseEncodingMap_none
      intro k hk
      exact (DefaultMorse_code_shape (k, []) (hperm.mem_iff.1 hk)).1 rfl
    have h0 : " ".toList.intercalate ([] : List (List Char)) = [] := rfl
    have h3 : Split [] "   ".toList = [[]] := rfl
    have h1 : Split [] " ".toList = [[]] := rfl
    rw [h0, h3, List.map_singleton, h1]
    simp [hnone, List.intercalate, List.intersperse]
  · have h3 := Split_three_intercalate L (fun w hw => ⟨(hL2 w hw).1, (hL2 w hw).2.1⟩) hne
    have h1 := Split_space_intercalate L (fun w hw => (hL2 w hw).2.1) hne
    rw [h3, List.map_singleton, h1, hL3, intercalate_singleton]
    exact ⟨rfl, rfl⟩

/-- C17: for every string `s`, the empty one included, all of whose runes are
keys of `DefaultMorse` other than Ь and Ъ, and every order in which the
inverse table was built, `ToText (ToMorse s) = s` with the default converter;
the encoding holds no three-space word pattern: split on three spaces it is
one word. -/
theorem C17_roundtrip_string (upper : Char → Char) (visit : List (Char × List Char))
    (s : List Char) (hup : ∀ k ∈ DefaultMorseKeys, upper k = k)
    (hperm : visit.Perm DefaultMorseEntries)
    (hs : ∀ r ∈ s, r ∈ DefaultMorseKeys ∧ r ≠ 'Ь' ∧ r ≠ 'Ъ') :
    ToText visit (ToMorse upper visit s) = s ∧
    Split (ToMorse upper visit s) "   ".toList = [ToMorse upper visit s] :=
  roundtrip_string upper visit s hup hperm hs

theorem C17_roundtrip_string_witness :
    (∀ k ∈ DefaultMorseKeys, unicodeToUpper k = k) ∧
    DefaultMorseEntries.Perm DefaultMorseEntries ∧
    (∀ r ∈ "ЩИ-2/7.".toList, r ∈ DefaultMorseKeys ∧ r ≠ 'Ь' ∧ r ≠ 'Ъ') ∧
    ToText DefaultMorseEntries (ToMorse unicodeToUpper DefaultMorseEntries "ЩИ-2/7.".toList)
      = "ЩИ-2/7.".toList ∧
    ToText DefaultMorseEntries (ToMorse unicodeToUpper DefaultMorseEntries []) = [] :=
  ⟨by decide, List.Perm.refl _, by decide,
    (C17_roundtrip_string unicodeToUpper DefaultMorseEntries "ЩИ-2/7.".toList (by decide)
      (List.Perm.refl _) (by decide)).1,
    (C17_roundtrip_string unicodeToUpper DefaultMorseEntries [] (by decide)
      (List.Perm.refl _) (by decide)).1⟩

/-! ### Strings without white space at the ends -/

theorem dropWhile_isSpace_eq_self (t : List Char)
    (h : ∀ x, t.head? = some x → isSpace x = false) : t.dropWhile isSpace = t := by
  cases t with
  | nil => rfl
  | cons a tl =>
    have ha := h a rfl
    exact List.dropWhile_cons_of_neg (by simp [ha])

theorem TrimSpace_eq_self (t : List Char)
    (hh : ∀ x, t.head? = some x → isSpace x = false)
    (hl : ∀ x, t.getLast? = some x → isSpace x = false) : TrimSpace t = t := by
  unfold TrimSpace
  rw [dropWhile_isSpace_eq_self t hh,
    dropWhile_isSpace_eq_self t.reverse (by rw [List.head?_reverse]; exact hl),
    List.reverse_reverse]

theorem intercalate_ends (L : List (List Char)) (hne : L ≠ [])
    (hL : ∀ w ∈ L, w ≠ [] ∧ ∀ ch ∈ w, ch = '.' ∨ ch = '-') :
    " ".toList.intercalate L ≠ [] ∧
    (∀ x, (" ".toList.intercalate L).head? = some x → x = '.' ∨ x = '-') ∧
    (∀ x, (" ".toList.intercalate L).getLast? = some x → x = '.' ∨ x = '-') := by
  induction L with
  | nil => exact absurd rfl hne
  | cons w rest ih =>
    have hw := hL w (List.mem_cons_self _ _)
    cases rest with
    | nil =>
      rw [intercalate_singleton]
      exact ⟨hw.1, fun x hx => hw.2 x (List.mem_of_mem_head? hx),
        fun x hx => hw.2 x (List.mem_of_mem_getLast? hx)⟩
    | cons w2 r =>
      obtain ⟨i1, _, i3⟩ := ih (by simp) (fun v hv => hL v (List.mem_cons_of_mem _ hv))
      rw [intercalate_cons_cons]
      refine ⟨?_, ?_, ?_⟩
      · simp [hw.1]
      · intro x hx
        rw [List.append_assoc, List.head?_append_of_ne_nil _ hw.1] at hx
        exact hw.2 x (List.mem_of_mem_head? hx)
      · intro x hx
        rw [List.getLast?_append_of_ne_nil _ i1] at hx
        exact i3 x hx

end Morse

namespace Service

open Morse

/-- C18: for every non-empty string `s` whose runes are all keys of
`DefaultMorse` other than Ь, Ъ, `.`, `-` and `/`, and every order in which
the inverse table was built, `AutoConvert s` succeeds with a Morse string that
is not empty, contains `.` or `-` and has no white space at either end, and
`AutoConvert` of that result succeeds and returns `s`. -/
theorem C18_AutoConvert_inverts (upper : Char → Char) (visit : List (Char × List Char))
    (s : List Char) (hup : ∀ k ∈ DefaultMorseKeys, upper k = k)
    (hperm : visit.Perm DefaultMorseEntries) (hne : s ≠ [])
    (hs : ∀ r ∈ s, r ∈ DefaultMorseKeys ∧ r ≠ 'Ь' ∧ r ≠ 'Ъ' ∧ r ≠ '.' ∧ r ≠ '-' ∧ r ≠ '/') :
    ∃ m : List Char, AutoConvert upper visit s = (m, none) ∧ m ≠ [] ∧
      (∃ ch ∈ m, ch = '.' ∨ ch = '-') ∧ TrimSpace m = m ∧
      AutoConvert upper visit m = (s, none) := by
  have hs2 : ∀ r ∈ s, r ∈ DefaultMorseKeys ∧ r ≠ 'Ь' ∧ r ≠ 'Ъ' :=
    fun r hr => ⟨(hs r hr).1, (hs r hr).2.1, (hs r hr).2.2.1⟩
  obtain ⟨L, hL1, hL2, _, hL4⟩ := encode_codes upper visit s hup hperm hs2
  have hLne : L ≠ [] := fun h => hne (hL4 h)
  have hm : ToMorse upper visit s = " ".toList.intercalate L := by
    rw [ToMorse_eq_encodeSpec]
    unfold encodeSpec
    rw [hL1]
  obtain ⟨m1, m2, m3⟩ := intercalate_ends L hLne (fun w hw => ⟨(hL2 w hw).1, (hL2 w hw).2.2⟩)
  rw [← hm] at m1 m2 m3
  have hdd : ∀ x : Char, x = '.' ∨ x = '-' → isSpace x = false := by
    intro x hx
    rcases hx with h | h <;> rw [h] <;> decide
  have hTs : TrimSpace s = s :=
    TrimSpace_eq_self s
      (fun x hx => DefaultMorse_keys_not_space x (hs x (List.mem_of_mem_head? hx)).1)
      (fun x hx => DefaultMorse_keys_not_space x (hs x (List.mem_of_mem_getLast? hx)).1)
  have hTm : TrimSpace (ToMorse upper visit s) = ToMorse upper visit s :=
    TrimSpace_eq_self _ (fun x hx => hdd x (m2 x hx)) (fun x hx => hdd x (m3 x hx))
  have hcs : ¬ ContainsAny s ".-/".toList = true := by
    intro h
    obtain ⟨ch, hch, hor⟩ := (ContainsAny_morse s).1 h
    have := hs ch hch
    rcases hor with h1 | h1 | h1
    · exact this.2.2.2.1 h1
    · exact this.2.2.2.2.1 h1
    · exact this.2.2.2.2.2 h1
  have hex : ∃ ch ∈ ToMorse upper visit s, ch = '.' ∨ ch = '-' := by
    cases hmm : ToMorse upper visit s with
    | nil => exact absurd hmm m1
    | cons a tl =>
      rw [hmm] at m2
      exact ⟨a, List.mem_cons_self _ _, m2 a rfl⟩
  have hcm : ContainsAny (ToMorse upper visit s) ".-/".toList = true := by
    obtain ⟨ch, hch, hor⟩ := hex
    refine (ContainsAny_morse _).2 ⟨ch, hch, ?_⟩
    rcases hor with h | h
    · exact Or.inl h
    · exact Or.inr (Or.inl h)
  refine ⟨ToMorse upper visit s, ?_, m1, hex, hTm, ?_⟩
  · unfold AutoConvert
    dsimp only
    rw [hTs, if_neg hne, if_neg hcs]
  · unfold AutoConvert
    dsimp only
    rw [hTm, if_neg m1, if_pos hcm, (roundtrip_string upper visit s hup hperm hs2).1]

theorem C18_AutoConvert_inverts_witness :
    (∀ k ∈ DefaultMorseKeys, unicodeToUpper k = k) ∧
    DefaultMorseEntries.Perm DefaultMorseEntries ∧ "ТЕСТ".toList ≠ [] ∧
    ∃ m : List Char,
      AutoConvert unicodeToUpper DefaultMorseEntries "ТЕСТ".toList = (m, none) ∧ m ≠ [] ∧
      (∃ ch ∈ m, ch = '.' ∨ ch = '-') ∧ TrimSpace m = m ∧
      AutoConvert unicodeToUpper DefaultMorseEntries m = ("ТЕСТ".toList, none) :=
  ⟨by decide, List.Perm.refl _, by decide,
    C18_AutoConvert_inverts unicodeToUpper DefaultMorseEntries "ТЕСТ".toList (by decide)
      (List.Perm.refl _) (by decide) (by decide)⟩

end Service

namespace Morse

/-! ### The word separator -/

theorem sameButWordSeparator_refl (c : Converter) : c.sameButWordSeparator c :=
  ⟨rfl, rfl, rfl, rfl, rfl, rfl⟩

theorem sameButWordSeparator_symm (c1 c2 : Converter) (h : c1.sameButWordSeparator c2) :
    c2.sameButWordSeparator c1 :=
  ⟨h.1.symm, h.2.1.symm, h.2.2.1.symm, h.2.2.2.1.symm, h.2.2.2.2.1.symm, h.2.2.2.2.2.symm⟩

theorem sameButWordSeparator_trans (c1 c2 c3 : Converter) (h : c1.sameButWordSeparator c2)
    (h2 : c2.sameButWordSeparator c3) : c1.sameButWordSeparator c3 :=
  ⟨h.1.trans h2.1, h.2.1.trans h2.2.1, h.2.2.1.trans h2.2.2.1,
    h.2.2.2.1.trans h2.2.2.2.1, h.2.2.2.2.1.trans h2.2.2.2.2.1,
    h.2.2.2.2.2.trans h2.2.2.2.2.2⟩

theorem sameButWordSeparator_set (c : Converter) (w : List Char) :
    Converter.sameButWordSeparator { c with wordSeparator := w } c :=
  ⟨rfl, rfl, rfl, rfl, rfl, rfl⟩

theorem toOption_same (o : OptionCall) (c1 c2 : Converter)
    (h : c1.sameButWordSeparator c2) : (o.toOption c1).sameButWordSeparator (o.toOption c2) := by
  obtain ⟨h1, h2, h3, h4, h5, h6⟩ := h
  cases o <;> refine ⟨?_, ?_, ?_, ?_, ?_, ?_⟩ <;>
    first | exact h1 | exact h2 | exact h3 | exact h4 | exact h5 | exact h6 | rfl

theorem foldl_options_filter (opts : List OptionCall) (c1 c2 : Converter)
    (h : c1.sameButWordSeparator c2) :
    Converter.sameButWordSeparator
      ((opts.map OptionCall.toOption).foldl (fun c opt => opt c) c1)
      (((opts.filter (fun o => !o.isWordSeparator)).map OptionCall.toOption).foldl
        (fun c opt => opt c) c2) := by
  induction opts generalizing c1 c2 with
  | nil => exact h
  | cons o rest ih =>
    cases hw : o.isWordSeparator with
    | true =>
      rw [List.filter_cons_of_neg (by simp [hw]), List.map_cons, List.foldl_cons]
      apply ih
      cases o <;> simp [OptionCall.isWordSeparator] at hw
      exact sameButWordSeparator_trans _ _ _ (sameButWordSeparator_set c1 _) h
    | false =>
      rw [List.filter_cons_of_pos (by simp [hw]), List.map_cons, List.map_cons,
        List.foldl_cons, List.foldl_cons]
      exact ih _ _ (toOption_same o c1 c2 h)

theorem newConverter_same (convertingMap : EncodingMap) (visit : List (Char × List Char))
    (opts1 opts2 : List OptionCall)
    (hsame : opts1.filter (fun o => !o.isWordSeparator)
      = opts2.filter (fun o => !o.isWordSeparator)) :
    Converter.sameButWordSeparator
      (newConverter convertingMap visit (opts1.map OptionCall.toOption))
      (newConverter convertingMap visit (opts2.map OptionCall.toOption)) := by
  have fin : ∀ opts : List OptionCall,
      Converter.sameButWordSeparator
        (newConverter convertingMap visit (opts.map OptionCall.toOption))
        (((opts.filter (fun o => !o.isWordSeparator)).map OptionCall.toOption).foldl
          (fun c opt => opt c)
          { runeToMorse := convertingMap
            morseToRune := reverseEncodingMap visit
            charSeparator := " ".toList
            wordSeparator := []
            convertToUpper := false
            trailingSeparator := false
            Handling := IgnoreHandler }) := by
    intro opts
    have hf := foldl_options_filter opts _ _ (sameButWordSeparator_refl
      { runeToMorse := convertingMap
        morseToRune := reverseEncodingMap visit
        charSeparator := " ".toList
        wordSeparator := []
        convertToUpper := false
        trailingSeparator := false
        Handling := IgnoreHandler })
    unfold newConverter
    dsimp only
    split_ifs
    · exact sameButWordSeparator_trans _ _ _ (sameButWordSeparator_set _ _) hf
    · exact hf
  have f1 := fin opts1
  have f2 := fin opts2
  rw [hsame] at f1
  exact sameButWordSeparator_trans _ _ _ f1 (sameButWordSeparator_symm _ _ f2)

theorem ToMorse_same (upper : Char → Char) (c1 c2 : Converter)
    (h : c1.sameButWordSeparator c2) (text : List Char) :
    c1.ToMorse upper text = c2.ToMorse upper text := by
  obtain ⟨r1, m1, s1, w1, u1, t1, g1⟩ := c1
  obtain ⟨r2, m2, s2, w2, u2, t2, g2⟩ := c2
  obtain ⟨h1, h2, h3, h4, h5, h6⟩ := h
  simp only at h1 h2 h3 h4 h5 h6
  subst h1 h2 h3 h4 h5 h6
  rfl

theorem ToText_same (c1 c2 : Converter) (h : c1.sameButWordSeparator c2)
    (morse : List Char) : c1.ToText morse = c2.ToText morse := by
  obtain ⟨r1, m1, s1, w1, u1, t1, g1⟩ := c1
  obtain ⟨r2, m2, s2, w2, u2, t2, g2⟩ := c2
  obtain ⟨h1, h2, h3, h4, h5, h6⟩ := h
  simp only at h1 h2 h3 h4 h5 h6
  subst h1 h2 h3 h4 h5 h6
  rfl

theorem reverseEncodingMap_perm_injective (entries visit1 visit2 : List (Char × List Char))
    (h1 : visit1.Perm entries) (h2 : visit2.Perm entries)
    (hinj : ∀ p ∈ entries, ∀ q ∈ entries, p.2 = q.2 → p.1 = q.1) :
    reverseEncodingMap visit1 = reverseEncodingMap visit2 := by
  funext c
  by_cases hex : ∃ p ∈ entries, p.2 = c
  · obtain ⟨⟨k, c2⟩, hp, hpc⟩ := hex
    simp only at hpc
    subst hpc
    have hu : ∀ q ∈ entries, q.2 = c2 → q.1 = k := fun q hq hc => hinj q hq (k, c2) hp hc
    rw [reverseEncodingMap_unique visit1 entries h1 c2 k hp hu,
      reverseEncodingMap_unique visit2 entries h2 c2 k hp hu]
  · have hno : ∀ (visit : List (Char × List Char)), visit.Perm entries →
        ∀ k, (k, c) ∉ visit := by
      intro visit hv k hk
      exact hex ⟨(k, c), hv.mem_iff.1 hk, rfl⟩
    rw [reverseEncodingMap_none visit1 c (hno visit1 h1),
      reverseEncodingMap_none visit2 c (hno visit2 h2)]

theorem newConverter_visit (convertingMap : EncodingMap)
    (visit1 visit2 : List (Char × List Char)) (options : List ConverterOption)
    (h : reverseEncodingMap visit1 = reverseEncodingMap visit2) :
    newConverter convertingMap visit1 options = newConverter convertingMap visit2 options := by
  unfold newConverter
  rw [h]

theorem toOption_sameButInverse (o : OptionCall) (c1 c2 : Converter)
    (h : c1.sameButInverse c2) : (o.toOption c1).sameButInverse (o.toOption c2) := by
  obtain ⟨h1, h2, h3, h4, h5, h6⟩ := h
  cases o <;> refine ⟨?_, ?_, ?_, ?_, ?_, ?_⟩ <;>
    first | exact h1 | exact h2 | exact h3 | exact h4 | exact h5 | exact h6 | rfl

theorem foldl_options_sameButInverse (opts : List OptionCall) (c1 c2 : Converter)
    (h : c1.sameButInverse c2) :
    Converter.sameButInverse
      ((opts.map OptionCall.toOption).foldl (fun c opt => opt c) c1)
      ((opts.map OptionCall.toOption).foldl (fun c opt => opt c) c2) := by
  induction opts generalizing c1 c2 with
  | nil => exact h
  | cons o rest ih =>
    rw [List.map_cons, List.foldl_cons, List.foldl_cons]
    exact ih _ _ (toOption_sameButInverse o c1 c2 h)

theorem newConverter_sameButInverse (convertingMap : EncodingMap)
    (visit1 visit2 : List (Char × List Char)) (opts : List OptionCall) :
    Converter.sameButInverse
      (newConverter convertingMap visit1 (opts.map OptionCall.toOption))
      (newConverter convertingMap visit2 (opts.map OptionCall.toOption)) := by
  have hf := foldl_options_sameButInverse opts
    { runeToMorse := convertingMap
      morseToRune := reverseEncodingMap visit1
      charSeparator := " ".toList
      wordSeparator := []
      convertToUpper := false
      trailingSeparator := false
      Handling := IgnoreHandler }
    { runeToMorse := convertingMap
      morseToRune := reverseEncodingMap visit2
      charSeparator := " ".toList
      wordSeparator := []
      convertToUpper := false
      trailingSeparator := false
      Handling := IgnoreHandler } ⟨rfl, rfl, rfl, rfl, rfl, rfl⟩
  obtain ⟨h1, h2, h3, h4, h5, h6⟩ := hf
  unfold newConverter
  dsimp only
  rw [← h3]
  split_ifs
  · refine ⟨h1, h2, ?_, h4, h5, h6⟩
    show _ ++ _ ++ _ = _ ++ _ ++ _
    rw [h1, h2]
  · exact ⟨h1, h2, h3, h4, h5, h6⟩

theorem ToMorse_sameButInverse (upper : Char → Char) (c1 c2 : Converter)
    (h : c1.sameButInverse c2) (text : List Char) :
    c1.ToMorse upper text = c2.ToMorse upper text := by
  obtain ⟨r1, m1, s1, w1, u1, t1, g1⟩ := c1
  obtain ⟨r2, m2, s2, w2, u2, t2, g2⟩ := c2
  obtain ⟨h1, h2, h3, h4, h5, h6⟩ := h
  simp only at h1 h2 h3 h4 h5 h6
  subst h1 h2 h3 h4 h5 h6
  rfl

/-- C19 (as stated, refuted): two converters built by `NewConverter` from
`DefaultMorse`, one with `WithWordSeparator(" / ")` and one with no option,
each ranging over the map in its own order, decode `-..-` differently: to Ъ
when the map was ranged over in the order of the source, to Ь in the reverse
order. -/
theorem C19_iteration_order_counterexample :
    DefaultMorseEntries.reverse.Perm DefaultMorseEntries ∧
    [OptionCall.wordSeparator " / ".toList].filter (fun o => !o.isWordSeparator)
      = ([] : List OptionCall).filter (fun o => !o.isWordSeparator) ∧
    (NewConverter DefaultMorse DefaultMorseEntries
        ([OptionCall.wordSeparator " / ".toList].map OptionCall.toOption)).map
        (fun c => c.ToText "-..-".toList) = some "Ъ".toList ∧
    (NewConverter DefaultMorse DefaultMorseEntries.reverse
        (([] : List OptionCall).map OptionCall.toOption)).map
        (fun c => c.ToText "-..-".toList) = some "Ь".toList :=
  ⟨List.reverse_perm _, rfl, by decide, by decide⟩

/-- C19 (amended): two converters built by `NewConverter` from the same table
with lists of the package's options that are the same except for the calls of
`WithWordSeparator` (their values, or their presence) give the same result of
`ToMorse` on every input, whatever orders the map was ranged over in, and the
same result of `ToText` on every input when the map was ranged over in the
same order `visit` for both, or when the table is injective; changing the
word separator of any converter changes no result; and `ToText` splits its
input into words on character separator + `" "` + character separator. -/
theorem C19_word_separator_no_influence (upper : Char → Char)
    (convertingMap : EncodingMap) (visit : List (Char × List Char))
    (opts1 opts2 : List OptionCall)
    (hsame : opts1.filter (fun o => !o.isWordSeparator)
      = opts2.filter (fun o => !o.isWordSeparator)) :
    (∀ text : List Char,
      (NewConverter convertingMap visit (opts1.map OptionCall.toOption)).map
          (fun c => c.ToMorse upper text)
        = (NewConverter convertingMap visit (opts2.map OptionCall.toOption)).map
          (fun c => c.ToMorse upper text)) ∧
    (∀ morse : List Char,
      (NewConverter convertingMap visit (opts1.map OptionCall.toOption)).map
          (fun c => c.ToText morse)
        = (NewConverter convertingMap visit (opts2.map OptionCall.toOption)).map
          (fun c => c.ToText morse)) ∧
    (∀ (c : Converter) (w input : List Char),
      Converter.ToMorse upper { c with wordSeparator := w } input = c.ToMorse upper input ∧
      Converter.ToText { c with wordSeparator := w } input = c.ToText input) ∧
    (∀ (c : Converter) (morse : List Char),
      c.ToText morse = c.removeLast
        ((Split morse (c.charSeparator ++ " ".toList ++ c.charSeparator)).foldl
          c.wordStep [])) ∧
    (∀ (entries visit2 : List (Char × List Char)), convertingMap = some entries →
      visit.Perm entries → visit2.Perm entries →
      (∀ p ∈ entries, ∀ q ∈ entries, p.2 = q.2 → p.1 = q.1) →
      ∀ morse : List Char,
        (newConverter convertingMap visit (opts1.map OptionCall.toOption)).ToText morse
          = (newConverter convertingMap visit2 (opts2.map OptionCall.toOption)).ToText
              morse) ∧
    (∀ (visit2 : List (Char × List Char)) (text : List Char),
      (NewConverter convertingMap visit (opts1.map OptionCall.toOption)).map
          (fun c => c.ToMorse upper text)
        = (NewConverter convertingMap visit2 (opts2.map OptionCall.toOption)).map
          (fun c => c.ToMorse upper text)) := by
  have hs := newConverter_same convertingMap visit opts1 opts2 hsame
  refine ⟨fun text => ?_, fun morse => ?_, fun c w input => ?_, fun c morse => rfl,
    fun entries visit2 _ hp1 hp2 hinj morse => ?_, fun visit2 text => ?_⟩
  · cases convertingMap with
    | none => rfl
    | some l =>
      exact congrArg some (ToMorse_same upper _ _ hs text)
  · cases convertingMap with
    | none => rfl
    | some l =>
      exact congrArg some (ToText_same _ _ hs morse)
  · exact ⟨ToMorse_same upper _ _ (sameButWordSeparator_set c w) input,
      ToText_same _ _ (sameButWordSeparator_set c w) input⟩
  · rw [← newConverter_visit convertingMap visit visit2 _
      (reverseEncodingMap_perm_injective entries visit visit2 hp1 hp2 hinj)]
    exact ToText_same _ _ hs morse
  · cases convertingMap with
    | none => rfl
    | some l =>
      exact congrArg some ((ToMorse_same upper _ _ hs text).trans
        (ToMorse_sameButInverse upper _ _
          (newConverter_sameButInverse (some l) visit visit2 opts2) text))

theorem C19_word_separator_no_influence_witness :
    [OptionCall.charSeparator " ".toList, OptionCall.wordSeparator " / ".toList,
        OptionCall.lowercaseHandling true].filter (fun o => !o.isWordSeparator)
      = [OptionCall.charSeparator " ".toList,
        OptionCall.lowercaseHandling true].filter (fun o => !o.isWordSeparator) ∧
    (NewConverter DefaultMorse DefaultMorseEntries
        ([OptionCall.charSeparator " ".toList, OptionCall.wordSeparator " / ".toList,
          OptionCall.lowercaseHandling true].map OptionCall.toOption)).map
        (fun c => c.ToText "- / -".toList)
      = (NewConverter DefaultMorse DefaultMorseEntries
        ([OptionCall.charSeparator " ".toList,
          OptionCall.lowercaseHandling true].map OptionCall.toOption)).map
        (fun c => c.ToText "- / -".toList) ∧
    (NewConverter DefaultMorse DefaultMorseEntries
        ([OptionCall.charSeparator " ".toList, OptionCall.wordSeparator " / ".toList,
          OptionCall.lowercaseHandling true].map OptionCall.toOption)).map
        (fun c => c.ToMorse unicodeToUpper "ТЕСТ ТЕСТ".toList)
      = (NewConverter DefaultMorse DefaultMorseEntries.reverse
        ([OptionCall.charSeparator " ".toList,
          OptionCall.lowercaseHandling true].map OptionCall.toOption)).map
        (fun c => c.ToMorse unicodeToUpper "ТЕСТ ТЕСТ".toList) :=
  ⟨rfl,
    (C19_word_separator_no_influence unicodeToUpper DefaultMorse DefaultMorseEntries
      [OptionCall.charSeparator " ".toList, OptionCall.wordSeparator " / ".toList,
        OptionCall.lowercaseHandling true]
      [OptionCall.charSeparator " ".toList, OptionCall.lowercaseHandling true] rfl).2.1
      "- / -".toList,
    (C19_word_separator_no_influence unicodeToUpper DefaultMorse DefaultMorseEntries
      [OptionCall.charSeparator " ".toList, OptionCall.wordSeparator " / ".toList,
        OptionCall.lowercaseHandling true]
      [OptionCall.charSeparator " ".toList, OptionCall.lowercaseHandling true] rfl).2.2.2.2.2
      DefaultMorseEntries.reverse "ТЕСТ ТЕСТ".toList⟩

end Morse
